import Mathlib

/-!
Formal model of the Iris content-ingestion pipeline.

The definitions below are a shallow embedding of the Go sources:
* `main.go` — input classification (`isWebURL`), the token-counting worker
  (`tokenWorker`), and the aggregation of the summary totals;
* `git.go` — `isGitURL`;
* `processor.go` — `walkDirectory` and its filter stack (hidden names,
  gitignore, depth ceiling, exclude/include globs, size ceiling);
* the web-crawl source file — `processWebURLRecursive` with its visited set,
  depth bound, response filtering and link following.

External collaborators (the HTTP client, HTML parsing/conversion, `net/url`
parsing and reference resolution, `filepath.Match`, the gitignore matcher, the
language table and the tokenizer) are modelled as explicit function parameters,
exactly at the interface the Go code consumes them through.  Go `int`/`int64`
counters are modelled as `Nat` (all quantities involved are non-negative and
far from overflow); byte lengths of strings use `String.utf8ByteSize`, matching
Go's `len` on the underlying bytes.
-/

/-- Model of Go `strings.HasPrefix` over the character sequence of a string. -/
def strStartsWith (s p : String) : Bool := p.data.isPrefixOf s.data

/-- Model of Go `strings.HasSuffix` over the character sequence of a string. -/
def strEndsWith (s p : String) : Bool := p.data.isSuffixOf s.data

/-- Entry flowing through the pipeline; mirrors `FileInfo` from the Go source
(`Path`, `Size`, `Mode`, `Content`, `TokenCount`, `IsDir`, `Error`).  `mode`
carries the permission bits, irrelevant to the properties below.  `content` is
`none` when the payload was not materialized at discovery time (local files)
and `some` for remote documents; `error` is the per-entry failure marker. -/
structure FileInfo where
  path : String
  size : Nat
  mode : Nat := 0
  content : Option String := none
  tokenCount : Nat := 0
  isDir : Bool := false
  error : Option String := none
deriving Repr, DecidableEq

/-- Summary of the aggregation stage; mirrors `Summary` from the Go source. -/
structure Summary where
  totalFiles : Nat
  totalSize : Nat
  totalTokens : Nat
deriving Repr, DecidableEq

/-! ## Input classification (`main.go` rootCmd.Run routing, `isWebURL`, `git.go` isGitURL) -/

/-- Route assigned to one input string by `rootCmd.Run`. -/
inductive InputKind where
  | web
  | gitRepo
  | localPath
deriving Repr, DecidableEq

/-- Translation of `isWebURL` (main.go): the input starts with an HTTP(S)
scheme prefix. -/
def isWebURL (input : String) : Bool :=
  strStartsWith input "http://" || strStartsWith input "https://"

/-- Translation of `isGitURL` (git.go): `.git` suffix or `git@` SSH form. -/
def isGitURL (input : String) : Bool :=
  strEndsWith input ".git" || strStartsWith input "git@"

/-- Translation of the routing in `rootCmd.Run` (main.go): the web check runs
first, then the git check, and everything else is a local path. -/
def classifyInput (input : String) : InputKind :=
  if isWebURL input then .web
  else if isGitURL input then .gitRepo
  else .localPath

/-! ## Enrichment worker (`tokenWorker`, main.go)

The tokenizer is the collaborator interface `CountTokens : string -> int`;
reading a file from disk is modelled as `readFile : String → Except String
String` (`Except.error` is a failed `os.ReadFile`). -/

/-- Translation of the per-job body of `tokenWorker` (main.go): directories
pass through; otherwise content is the pre-loaded payload if present, else the
file is read from disk; a read failure is attached to the entry (the metric is
left untouched); otherwise the token count is computed for non-empty content
and set to zero for empty content.  The entry is returned (sent to `results`)
in every case. -/
def tokenWorkerStep (countTokens : String → Nat)
    (readFile : String → Except String String) (file : FileInfo) : FileInfo :=
  if file.isDir then file
  else
    match file.content with
    | some content =>
        if 0 < content.utf8ByteSize then { file with tokenCount := countTokens content }
        else { file with tokenCount := 0 }
    | none =>
        match readFile file.path with
        | .error e => { file with error := some e }
        | .ok content =>
            if 0 < content.utf8ByteSize then { file with tokenCount := countTokens content }
            else { file with tokenCount := 0 }

/-- A worker consuming a queue of jobs: every job yields exactly one delivered
result, in order.  (In the Go code the jobs channel is partitioned among
workers; each job is processed by exactly one worker via `tokenWorkerStep`.) -/
def tokenWorkerRun (countTokens : String → Nat)
    (readFile : String → Except String String) (jobs : List FileInfo) : List FileInfo :=
  jobs.map (tokenWorkerStep countTokens readFile)

/-- Content the worker operates on for a file entry: the pre-loaded payload if
present, otherwise the result of reading the file by its path. -/
def obtainContent (readFile : String → Except String String)
    (file : FileInfo) : Except String String :=
  match file.content with
  | some c => .ok c
  | none => readFile file.path

/-! ## Aggregation (`rootCmd.Run`, main.go lines 219-236) -/

/-- One step of the summary loop in `rootCmd.Run`: directories are skipped;
file entries bump the count, add their size, and (when token counting is
enabled) add their token count. -/
def aggregateStep (disableTokens : Bool) (acc : Summary) (file : FileInfo) : Summary :=
  if file.isDir then acc
  else
    { totalFiles := acc.totalFiles + 1
      totalSize := acc.totalSize + file.size
      totalTokens := acc.totalTokens + (if disableTokens then 0 else file.tokenCount) }

/-- Translation of the aggregation loop over `processedFiles` (main.go). -/
def aggregateSummary (disableTokens : Bool) (files : List FileInfo) : Summary :=
  files.foldl (aggregateStep disableTokens) ⟨0, 0, 0⟩

/-! ## Remote document crawler (`processWebURLRecursive`)

The crawler's collaborators are modelled abstractly: `parse` is `url.Parse`
(`none` is a parse error), `resolve` is `parsedURL.Parse(link)` (resolution of
a possibly-relative reference against the current page, `none` an error), and
`fetch` is `http.Get` combined with reading the body, extracting the `a[href]`
targets in document order (`hrefs`) and the HTML→Markdown conversion (`conv`,
`none` when the conversion fails).  A parsed URL is modelled by its scheme,
its scheme-less remainder and its fragment; `render` is `URL.String()`. -/

/-- Parsed URL (the fields of `net/url.URL` that the crawler touches). -/
structure PURL where
  scheme : String
  rest : String
  fragment : String
deriving Repr, DecidableEq

/-- Model of `URL.String()` for the URL shapes the crawler handles. -/
def PURL.render (u : PURL) : String :=
  u.scheme ++ "://" ++ u.rest ++ (if u.fragment == "" then "" else "#" ++ u.fragment)

/-- The observable data of one fetched document. -/
structure PageData where
  status : Nat
  contentType : String
  conv : Option String
  hrefs : List String
deriving Repr, DecidableEq

/-- Result of `http.Get`: transport failure or a response. -/
inductive FetchResult where
  | fetchFailed
  | response (page : PageData)
deriving Repr, DecidableEq

/-- External collaborators of one crawl. -/
structure CrawlWorld where
  parse : String → Option PURL
  resolve : PURL → String → Option PURL
  fetch : String → FetchResult

/-- ASCII lowering of one character (the prefixes and the content type the
code compares against are ASCII, so this matches `strings.ToLower` there). -/
def lowerAsciiChar (c : Char) : Char :=
  if 'A' ≤ c ∧ c ≤ 'Z' then Char.ofNat (c.toNat + 32) else c

/-- Model of `strings.ToLower` on the ASCII range. -/
def lowerAscii (s : String) : String := ⟨s.data.map lowerAsciiChar⟩

/-- Substring containment on character lists (Go `strings.Contains`). -/
def listContainsSub (needle : List Char) : List Char → Bool
  | [] => needle.isEmpty
  | c :: t => needle.isPrefixOf (c :: t) || listContainsSub needle t

/-- Model of `strings.Contains`. -/
def strContainsSub (s sub : String) : Bool := listContainsSub sub.data s.data

/-- Translation of the href filter (crawl source, line 99): empty targets,
fragment-only targets, `mailto:` and `javascript:` targets are discarded. -/
def isSkippableHref (link : String) : Bool :=
  link == "" || strStartsWith link "#" ||
    strStartsWith (lowerAscii link) "mailto:" ||
    strStartsWith (lowerAscii link) "javascript:"

/-- Verbatim translation of the scheme test guarding recursion (crawl source,
line 111): `resolvedURL.Scheme == "http" || resolvedURL.Scheme == "https://"`. -/
def followScheme (s : String) : Bool := s == "http" || s == "https://"

/-- Character allowed after the first position of a URI scheme
(RFC 3986, as enforced by `net/url`'s `getScheme`). -/
def isSchemeChar (c : Char) : Bool := c.isAlpha || c.isDigit || c == '+' || c == '-' || c == '.'

/-- A string that `net/url.Parse` could ever produce as `URL.Scheme`: nonempty,
letter first, then letters, digits, `+`, `-`, `.` only (and `Parse` lowercases
it).  In particular no scheme ever contains `:` or `/`. -/
def validGoScheme (s : String) : Bool :=
  match s.data with
  | [] => false
  | c :: cs => c.isAlpha && cs.all isSchemeChar

/-- Result of one recursive crawl call: the accumulated entries, the visited
set after the call (the Go code mutates one shared map; it is threaded here),
the fetch trace (each `http.Get` with the depth it happened at — ghost
instrumentation, not data the Go code stores), and the error return. -/
structure CrawlOut where
  files : List FileInfo
  visited : List String
  fetched : List (String × Nat)
  error : Option String
deriving Repr

/-- The part of a recursive call's result its caller uses: the error return is
discarded at the call site (`linkedFiles, _ := processWebURLRecursive(...)`). -/
structure LinkOut where
  files : List FileInfo
  visited : List String
  fetched : List (String × Nat)
deriving Repr

/-- Translation of the link loop (crawl source, lines 97-117): each href is
filtered, resolved against the fragment-stripped page URL, kept only when the
scheme test passes, and recursed into (`recur`), accumulating entries and
fetches in document order and threading the visited set. -/
def crawlLinks (resolve : String → Option PURL) (recur : String → List String → LinkOut) :
    List String → List String → LinkOut
  | [], visited => ⟨[], visited, []⟩
  | link :: rest, visited =>
    if isSkippableHref link then crawlLinks resolve recur rest visited
    else
      match resolve link with
      | none => crawlLinks resolve recur rest visited
      | some r =>
        if followScheme r.scheme then
          let child := recur r.render visited
          let restOut := crawlLinks resolve recur rest child.visited
          ⟨child.files ++ restOut.files, restOut.visited, child.fetched ++ restOut.fetched⟩
        else crawlLinks resolve recur rest visited

/-- Translation of `processWebURLRecursive` (crawl source).  `fuel` only
bounds the recursion for the termination checker: every recursive call of the
Go function strictly increases `currentDepth`, which the guard keeps at most
`maxDepth`, so starting fuel `maxDepth + 1 - currentDepth` (as
`processWebURLRecursive` below does) the zero-fuel branch is unreachable.
The steps, in source order: parse the URL (error return on failure), strip the
fragment, depth guard, visited guard, mark visited, fetch (skip on transport
failure, non-2xx status, or non-HTML content type), convert to Markdown and
build the page's entry when conversion succeeds, then follow links when below
the depth ceiling. -/
def crawlAux (w : CrawlWorld) : Nat → String → Nat → Nat → List String → CrawlOut
  | 0, _, _, _, visited => ⟨[], visited, [], none⟩
  | fuel + 1, startURL, currentDepth, maxDepth, visited =>
    match w.parse startURL with
    | none => ⟨[], visited, [], some ("invalid start URL " ++ startURL)⟩
    | some p0 =>
      let p : PURL := { p0 with fragment := "" }
      let cleanURL := p.render
      if maxDepth < currentDepth then ⟨[], visited, [], none⟩
      else if visited.contains cleanURL then ⟨[], visited, [], none⟩
      else
        let visited1 := cleanURL :: visited
        match w.fetch cleanURL with
        | .fetchFailed => ⟨[], visited1, [(cleanURL, currentDepth)], none⟩
        | .response page =>
          if page.status < 200 ∨ 300 ≤ page.status then
            ⟨[], visited1, [(cleanURL, currentDepth)], none⟩
          else if !strContainsSub (lowerAscii page.contentType) "text/html" then
            ⟨[], visited1, [(cleanURL, currentDepth)], none⟩
          else
            let currentFiles : List FileInfo :=
              match page.conv with
              | some markdown =>
                  [{ path := cleanURL, size := markdown.utf8ByteSize, content := some markdown }]
              | none => []
            if currentDepth < maxDepth then
              let lout := crawlLinks (w.resolve p)
                (fun url vis =>
                  let o := crawlAux w fuel url (currentDepth + 1) maxDepth vis
                  ⟨o.files, o.visited, o.fetched⟩)
                page.hrefs visited1
              ⟨currentFiles ++ lout.files, lout.visited, (cleanURL, currentDepth) :: lout.fetched, none⟩
            else
              ⟨currentFiles, visited1, [(cleanURL, currentDepth)], none⟩

/-- One crawl invocation as `rootCmd.Run` starts it: depth 0, fresh visited
set, with enough fuel that the fuel cutoff is unreachable. -/
def processWebURLRecursive (w : CrawlWorld) (startURL : String) (maxDepth : Nat) : CrawlOut :=
  crawlAux w (maxDepth + 1) startURL 0 maxDepth []

/-- Invariants of one recursive crawl call, used inductively below: the
visited set after a call is the newly fetched URLs (in reverse fetch order,
since each is consed on) on top of the old visited set; every fetched URL was
unvisited before the call; no URL is fetched twice within the call; and the
entry paths are, in order, a sublist of the fetched URLs. -/
def GoodRec (recur : String → List String → LinkOut) : Prop :=
  ∀ url vis,
    (recur url vis).visited = ((recur url vis).fetched.map Prod.fst).reverse ++ vis ∧
    (∀ u ∈ (recur url vis).fetched.map Prod.fst, u ∉ vis) ∧
    ((recur url vis).fetched.map Prod.fst).Nodup ∧
    ((recur url vis).files.map FileInfo.path).Sublist ((recur url vis).fetched.map Prod.fst)

/-! ## Concrete crawl scenarios

Small concrete worlds used in closed scenario theorems.  `mkParseTable` builds
a `url.Parse` model from a finite table of absolute URLs; resolution of the
(absolute) hrefs in these scenarios ignores the base URL, as `net/url` does
for absolute references. -/

/-- Finite-table model of `url.Parse` for a fixed set of absolute URLs. -/
def mkParseTable (tbl : List (String × PURL)) : String → Option PURL := fun s =>
  (tbl.find? (fun kv => kv.1 == s)).map (fun kv => kv.2)

/-- URL table for the depth scenario: pages P, Q, R. -/
def depthTbl : List (String × PURL) :=
  [("http://p.example/", ⟨"http", "p.example/", ""⟩),
   ("http://q.example/", ⟨"http", "q.example/", ""⟩),
   ("http://r.example/", ⟨"http", "r.example/", ""⟩),
   ("http://s.example/", ⟨"http", "s.example/", ""⟩)]

/-- Depth-scenario world: P links to Q, Q links to R, all pages healthy. -/
def depthWorld : CrawlWorld where
  parse := mkParseTable depthTbl
  resolve := fun _ link => mkParseTable depthTbl link
  fetch := fun u =>
    if u == "http://p.example/" then
      .response ⟨200, "text/html", some "P page", ["http://q.example/"]⟩
    else if u == "http://q.example/" then
      .response ⟨200, "text/html", some "Q page", ["http://r.example/"]⟩
    else if u == "http://r.example/" then
      .response ⟨200, "text/html", some "R page", []⟩
    else .fetchFailed

/-- Error-scenario world: P links to Q (which answers 404) and then to a
healthy sibling S. -/
def errWorld : CrawlWorld where
  parse := mkParseTable depthTbl
  resolve := fun _ link => mkParseTable depthTbl link
  fetch := fun u =>
    if u == "http://p.example/" then
      .response ⟨200, "text/html", some "P page", ["http://q.example/", "http://s.example/"]⟩
    else if u == "http://q.example/" then
      .response ⟨404, "text/html", some "missing", []⟩
    else if u == "http://s.example/" then
      .response ⟨200, "text/html", some "S page", []⟩
    else .fetchFailed

/-- Variant of the error scenario in which Q is P's only link (the spec's
literal scenario: the crawl of P still yields exactly P's entry). -/
def errWorldB : CrawlWorld where
  parse := mkParseTable depthTbl
  resolve := fun _ link => mkParseTable depthTbl link
  fetch := fun u =>
    if u == "http://p.example/" then
      .response ⟨200, "text/html", some "P page", ["http://q.example/"]⟩
    else if u == "http://q.example/" then
      .response ⟨404, "text/html", some "missing", []⟩
    else .fetchFailed

/-- URL table for the scheme scenario: page A linking to an `https` page B and
an `http` page C. -/
def schemeTbl : List (String × PURL) :=
  [("http://a.example/", ⟨"http", "a.example/", ""⟩),
   ("https://b.example/x", ⟨"https", "b.example/x", ""⟩),
   ("http://c.example/", ⟨"http", "c.example/", ""⟩)]

/-- Scheme-scenario world: A links to the https page B and the http page C;
all three pages are healthy and fetchable. -/
def schemeWorld : CrawlWorld where
  parse := mkParseTable schemeTbl
  resolve := fun _ link => mkParseTable schemeTbl link
  fetch := fun u =>
    if u == "http://a.example/" then
      .response ⟨200, "text/html", some "A page", ["https://b.example/x", "http://c.example/"]⟩
    else if u == "https://b.example/x" then
      .response ⟨200, "text/html", some "B page", []⟩
    else if u == "http://c.example/" then
      .response ⟨200, "text/html", some "C page", []⟩
    else .fetchFailed

/-! ## Local tree walker (`walkDirectory`, processor.go)

The filesystem visible to one walk is modelled as a tree of named entries with
file sizes; `filepath.Match` is the parameter `goMatch` (`none` is
`ErrBadPattern`), the gitignore matcher loaded for the root is `ignore` (with
`none` for "no matcher"), and the language table is `langKnown`
(`GetLanguageForFile`'s found flag; `none` models `langData == nil`).
`filepath.WalkDir` visits the entries of a directory in lexical order; the
model walks children in the order the tree lists them, which none of the
verified properties depend on.  `d.Info()` (the stat of a visited file) is
modelled as always succeeding — the sizes live in the tree.  Each callback
invocation is recorded as a trace item (the ghost record of the filesystem
reads), remembering the relative path, whether the entry is a directory, and
whether the walk pruned its subtree (`fs.SkipDir`). -/

/-- Model of Go `strings.Trim(path, "/")`. -/
def trimSlashes (s : String) : String :=
  ⟨((s.data.dropWhile (· == '/')).reverse.dropWhile (· == '/')).reverse⟩

/-- Translation of `countPathSeparators` (processor.go): `ToSlash` is the
identity on slash-separated paths, `"."` and `""` have depth zero, otherwise
the separators of the trimmed path are counted. -/
def countPathSeparators (path : String) : Nat :=
  if path == "." || path == "" then 0
  else (trimSlashes path).data.count '/'

/-- Model of Go `filepath.Base`: empty path gives `"."`; otherwise trailing
slashes are stripped, the part after the last slash is taken, and an
all-slashes path gives `"/"`. -/
def goBase (path : String) : String :=
  if path == "" then "."
  else
    let l1 := path.data.reverse.dropWhile (· == '/')
    let base := (l1.takeWhile (fun c => c != '/')).reverse
    if base.isEmpty then "/" else ⟨base⟩

/-- Translation of `isHidden` (processor.go): `"."` and `".."` are not hidden;
otherwise the base name must be nonempty and start with `'.'`. -/
def isHidden (path : String) : Bool :=
  if path == "." || path == ".." then false
  else
    match (goBase path).data with
    | [] => false
    | c :: _ => c == '.'

/-- Result of Go `matchesAnyPattern` (processor.go): the matched flag, or the
error return when `filepath.Match` reports a bad pattern. -/
inductive MatchRes where
  | ok (matched : Bool)
  | badPattern
deriving Repr, DecidableEq

/-- The boolean a caller of `matchesAnyPattern` ends up using: on an error
return the returned flag is `false` (the caller logs the error and goes on
with that value). -/
def MatchRes.toBool : MatchRes → Bool
  | .ok b => b
  | .badPattern => false

/-- Translation of `matchesAnyPattern` (processor.go): patterns are tried in
order; a match error returns immediately (later patterns are not consulted);
a match returns `true`; otherwise the scan continues. -/
def matchesAnyPattern (goMatch : String → String → Option Bool) (name : String) :
    List String → MatchRes
  | [] => .ok false
  | p :: ps =>
    match goMatch p name with
    | none => .badPattern
    | some true => .ok true
    | some false => matchesAnyPattern goMatch name ps

/-- Configuration of one walk: the flag variables read by `walkDirectory`
(with include/exclude patterns already comma-split) plus its three external
collaborators. -/
structure WalkCfg where
  showHidden : Bool
  includes : List String
  excludes : List String
  maxDepth : Int
  maxSizeBytes : Int
  langKnown : Option (String → Bool)
  ignore : Option (String → Bool → Bool)
  goMatch : String → String → Option Bool

/-- The gitignore test as the walk performs it: `ignoreMatcher != nil &&
ignoreMatcher.Match(relPath, isDir)`. -/
def ignoreHit (ignore : Option (String → Bool → Bool)) (relPath : String)
    (isDir : Bool) : Bool :=
  match ignore with
  | some m => m relPath isDir
  | none => false

/-- Translation of the `keepFile` computation (processor.go lines 174-193):
explicit includes win; otherwise a loaded language table decides by the full
path; otherwise every non-excluded file is kept. -/
def keepFileFlag (cfg : WalkCfg) (rootPath relPath name : String) : Bool :=
  if !cfg.includes.isEmpty then (matchesAnyPattern cfg.goMatch name cfg.includes).toBool
  else
    match cfg.langKnown with
    | some known => known (rootPath ++ "/" ++ relPath)
    | none => true

/-- A directory tree as one walk observes it. -/
inductive FSTree where
  | file (name : String) (size : Nat)
  | dir (name : String) (children : List FSTree)
deriving Repr

/-- Name of a tree entry. -/
def FSTree.name : FSTree → String
  | .file n _ => n
  | .dir n _ => n

/-- Ghost record of one callback invocation of the walk: the relative path
visited, whether it is a directory, and whether the walk answered
`fs.SkipDir` for it. -/
structure TraceItem where
  relPath : String
  isDir : Bool
  pruned : Bool
deriving Repr, DecidableEq

/-- Relative path of a child entry, as `filepath.Rel(root, path)` yields it:
the bare name for a direct child of the root, otherwise parent slash name. -/
def childRel (parentRel name : String) : String :=
  if parentRel == "" then name else parentRel ++ "/" ++ name

mutual

/-- Translation of the `filepath.WalkDir` callback of `walkDirectory`
(processor.go) on one visited entry, together with the induced traversal.
Rule order as in the source: hidden name, gitignore, depth ceiling (which
skips directories only — files fall through), exclude globs, then for files
the include/language rule and the size ceiling.  The returned pair is (kept
entries, visit trace). -/
def walkNode (cfg : WalkCfg) (rootPath : String) :
    String → FSTree → List FileInfo × List TraceItem
  | relPath, .file name size =>
      if !cfg.showHidden && isHidden name then ([], [⟨relPath, false, false⟩])
      else if ignoreHit cfg.ignore relPath false then ([], [⟨relPath, false, false⟩])
      else if (matchesAnyPattern cfg.goMatch name cfg.excludes).toBool then
        ([], [⟨relPath, false, false⟩])
      else if !keepFileFlag cfg rootPath relPath name then ([], [⟨relPath, false, false⟩])
      else if 0 < cfg.maxSizeBytes ∧ cfg.maxSizeBytes < (size : Int) then
        ([], [⟨relPath, false, false⟩])
      else ([{ path := rootPath ++ "/" ++ relPath, size := size }], [⟨relPath, false, false⟩])
  | relPath, .dir name children =>
      if !cfg.showHidden && isHidden name then ([], [⟨relPath, true, true⟩])
      else if ignoreHit cfg.ignore relPath true then ([], [⟨relPath, true, true⟩])
      else if 0 < cfg.maxDepth ∧ cfg.maxDepth ≤ (countPathSeparators relPath : Int) then
        ([], [⟨relPath, true, true⟩])
      else if (matchesAnyPattern cfg.goMatch name cfg.excludes).toBool then
        ([], [⟨relPath, true, true⟩])
      else
        let sub := walkForest cfg rootPath relPath children
        (sub.1, ⟨relPath, true, false⟩ :: sub.2)

/-- The walk over the entries of one directory, in order. -/
def walkForest (cfg : WalkCfg) (rootPath : String) :
    String → List FSTree → List FileInfo × List TraceItem
  | _, [] => ([], [])
  | parentRel, t :: ts =>
      let hd := walkNode cfg rootPath (childRel parentRel (FSTree.name t)) t
      let tl := walkForest cfg rootPath parentRel ts
      (hd.1 ++ tl.1, hd.2 ++ tl.2)

end

/-- Translation of `walkDirectory` (processor.go): the root itself is skipped
by the callback (`path == root`), so the walk is the forest walk of the root's
entries with empty parent-relative path. -/
def walkDirectory (cfg : WalkCfg) (rootPath : String)
    (rootChildren : List FSTree) : List FileInfo × List TraceItem :=
  walkForest cfg rootPath "" rootChildren

/-- A name a real directory entry can have: nonempty, not a dot marker, and
slash-free. -/
def validNameB (n : String) : Bool :=
  n != "" && n != "." && n != ".." && !(n.data.contains '/')

mutual

/-- Well-formedness of a tree as a filesystem: every name is a valid entry
name and sibling names are distinct. -/
def treeOkB : FSTree → Bool
  | .file n _ => validNameB n
  | .dir n cs => validNameB n && forestOkB cs

/-- Well-formedness of a directory listing. -/
def forestOkB : List FSTree → Bool
  | [] => true
  | t :: ts => treeOkB t && !((ts.map FSTree.name).contains (FSTree.name t)) && forestOkB ts

end

/-! ## Concrete data used by witnesses -/

/-- Behavior of `filepath.Match` on the patterns of the exclude-mask
counterexample: `"["` is malformed (an unterminated character class, so
`Match` returns `ErrBadPattern`), and `"*.txt"` matches exactly the names
ending in `".txt"` (single-segment names without meta-characters). -/
def cexMatcher (pat name : String) : Option Bool :=
  if pat == "[" then none
  else if pat == "*.txt" then some (strEndsWith name ".txt")
  else some false

/-- Walk configuration of the exclude-mask counterexample: excludes are the
malformed `"["` followed by `"*.txt"`, no includes, no other limits. -/
def cexCfg : WalkCfg :=
  { showHidden := false, includes := [], excludes := ["[", "*.txt"],
    maxDepth := 0, maxSizeBytes := 0, langKnown := none, ignore := none,
    goMatch := cexMatcher }

/-- Directory listing of the exclude-mask counterexample: one text file. -/
def cexForest : List FSTree := [.file "b.txt" 3]

/-- Behavior of `filepath.Match` on the patterns of the spec's filter
scenario: `"*.go"` and `"*.txt"` match by extension. -/
def specMatcher (pat name : String) : Option Bool :=
  if pat == "*.go" then some (strEndsWith name ".go")
  else if pat == "*.txt" then some (strEndsWith name ".txt")
  else some false

/-- Walk configuration of the spec's filter scenario: include `*.go`,
exclude `*.txt`, hidden display off. -/
def specCfg : WalkCfg :=
  { showHidden := false, includes := ["*.go"], excludes := ["*.txt"],
    maxDepth := 0, maxSizeBytes := 0, langKnown := none, ignore := none,
    goMatch := specMatcher }

/-- Directory listing of the spec's filter scenario: `a.go` (50 bytes), the
hidden `.secret`, and `b.txt`. -/
def specForest : List FSTree :=
  [.file "a.go" 50, .file ".secret" 5, .file "b.txt" 10]

/-- Walk configuration of the depth scenario: ceiling 1, nothing else set. -/
def depthCfg : WalkCfg :=
  { showHidden := false, includes := [], excludes := [], maxDepth := 1,
    maxSizeBytes := 0, langKnown := none, ignore := none,
    goMatch := fun _ _ => some false }

/-- Directory listing of the depth scenario: a directory `d` holding a file
`f.go` (at depth 1, the ceiling) and a directory `e` (also at the ceiling,
holding a deeper file). -/
def depthForest : List FSTree :=
  [.dir "d" [.file "f.go" 5, .dir "e" [.file "g.go" 7]]]

/-- Tokenizer used in closed witnesses: byte length of the text (its count of
the empty string is zero, as for the tokenizers shipped with the program). -/
def witCount (s : String) : Nat := s.utf8ByteSize

/-- Disk model used in closed witnesses: one readable file and one that fails. -/
def witRead (p : String) : Except String String :=
  if p == "/r/ok.go" then .ok "abc" else .error "permission denied"

/-- Entry list used by the aggregation witness: two file entries (one carrying
a failure, with its metric unset) and a directory entry. -/
def witFiles : List FileInfo :=
  [{ path := "/r/a.go", size := 50, tokenCount := 7 },
   { path := "/r/d", size := 0, isDir := true },
   { path := "/r/bad.go", size := 10, tokenCount := 0, error := some "permission denied" }]

/-! # Theorems -/

/-- C10: input classification gives web URLs precedence over repository
references.  For every input string: it is routed to the web crawler iff it
begins with `http://` or `https://` (even if it ends with `.git`, as the
concrete final conjunct shows); it is treated as a repository reference iff it
does not begin with those prefixes and either ends with `.git` or begins with
`git@`; every other input is treated as a local path. -/
theorem c10_input_classification (input : String) :
    (classifyInput input = .web ↔
      (strStartsWith input "http://" ∨ strStartsWith input "https://")) ∧
    (classifyInput input = .gitRepo ↔
      (¬ (strStartsWith input "http://" ∨ strStartsWith input "https://") ∧
        (strEndsWith input ".git" ∨ strStartsWith input "git@"))) ∧
    (classifyInput input = .localPath ↔
      (¬ (strStartsWith input "http://" ∨ strStartsWith input "https://") ∧
        ¬ (strEndsWith input ".git" ∨ strStartsWith input "git@"))) ∧
    classifyInput "https://example.com/repo.git" = .web := by
  have hw : (isWebURL input = true) ↔
      (strStartsWith input "http://" ∨ strStartsWith input "https://") := by
    simp [isWebURL]
  have hg : (isGitURL input = true) ↔
      (strEndsWith input ".git" ∨ strStartsWith input "git@") := by
    simp [isGitURL]
  refine ⟨?_, ?_, ?_, by decide⟩
  · rw [← hw]; unfold classifyInput
    by_cases h : isWebURL input = true
    · simp [h]
    · simp [h]; split <;> simp_all
  · rw [← hw, ← hg]; unfold classifyInput
    by_cases h : isWebURL input = true
    · simp [h]
    · by_cases h2 : isGitURL input = true <;> simp [h, h2]
  · rw [← hw, ← hg]; unfold classifyInput
    by_cases h : isWebURL input = true
    · simp [h]
    · by_cases h2 : isGitURL input = true <;> simp [h, h2]

/-- Helper: the four crawl invariants lift from the recursive call to the link
loop `crawlLinks`. -/
theorem crawlLinks_invariants (resolve : String → Option PURL)
    (recur : String → List String → LinkOut) (hrec : GoodRec recur) :
    ∀ links vis,
      (crawlLinks resolve recur links vis).visited
          = ((crawlLinks resolve recur links vis).fetched.map Prod.fst).reverse ++ vis ∧
      (∀ u ∈ (crawlLinks resolve recur links vis).fetched.map Prod.fst, u ∉ vis) ∧
      ((crawlLinks resolve recur links vis).fetched.map Prod.fst).Nodup ∧
      ((crawlLinks resolve recur links vis).files.map FileInfo.path).Sublist
          ((crawlLinks resolve recur links vis).fetched.map Prod.fst) := by
  intro links
  induction links with
  | nil => intro vis; simp [crawlLinks]
  | cons link rest ih =>
    intro vis
    by_cases hskip : isSkippableHref link = true
    · have hstep : crawlLinks resolve recur (link :: rest) vis
          = crawlLinks resolve recur rest vis := by
        simp [crawlLinks, hskip]
      rw [hstep]; exact ih vis
    · cases hres : resolve link with
      | none =>
          have hstep : crawlLinks resolve recur (link :: rest) vis
              = crawlLinks resolve recur rest vis := by
            simp [crawlLinks, hskip, hres]
          rw [hstep]; exact ih vis
      | some r =>
          by_cases hf : followScheme r.scheme = true
          · have hchild := hrec r.render vis
            have hrest := ih (recur r.render vis).visited
            have hout : crawlLinks resolve recur (link :: rest) vis =
                ⟨(recur r.render vis).files
                    ++ (crawlLinks resolve recur rest (recur r.render vis).visited).files,
                  (crawlLinks resolve recur rest (recur r.render vis).visited).visited,
                  (recur r.render vis).fetched
                    ++ (crawlLinks resolve recur rest (recur r.render vis).visited).fetched⟩ := by
              simp [crawlLinks, hskip, hres, hf]
            rw [hout]
            obtain ⟨hcv, hcf, hcn, hcs⟩ := hchild
            obtain ⟨hrv, hrf, hrn, hrs⟩ := hrest
            refine ⟨?_, ?_, ?_, ?_⟩
            · dsimp only
              rw [hrv, hcv]
              simp [List.map_append, List.reverse_append, List.append_assoc]
            · dsimp only
              intro u hu
              simp only [List.map_append] at hu
              rcases List.mem_append.mp hu with h1 | h2
              · exact hcf u h1
              · have h3 := hrf u h2
                intro hvis
                refine h3 ?_
                rw [hcv]
                exact List.mem_append_right _ hvis
            · dsimp only
              simp only [List.map_append]
              rw [List.nodup_append]
              refine ⟨hcn, hrn, ?_⟩
              intro u h1 h2
              refine (hrf u h2) ?_
              rw [hcv]
              exact List.mem_append_left _ (List.mem_reverse.mpr h1)
            · dsimp only
              simp only [List.map_append]
              exact hcs.append hrs
          · have hstep : crawlLinks resolve recur (link :: rest) vis
                = crawlLinks resolve recur rest vis := by
              simp [crawlLinks, hskip, hres, hf]
            rw [hstep]; exact ih vis

/-- Helper: the four crawl invariants hold for `crawlAux` at every fuel,
depth and visited set, by induction on the fuel. -/
theorem crawlAux_invariants (w : CrawlWorld) :
    ∀ fuel depth maxD url vis,
      (crawlAux w fuel url depth maxD vis).visited
          = ((crawlAux w fuel url depth maxD vis).fetched.map Prod.fst).reverse ++ vis ∧
      (∀ u ∈ (crawlAux w fuel url depth maxD vis).fetched.map Prod.fst, u ∉ vis) ∧
      ((crawlAux w fuel url depth maxD vis).fetched.map Prod.fst).Nodup ∧
      ((crawlAux w fuel url depth maxD vis).files.map FileInfo.path).Sublist
          ((crawlAux w fuel url depth maxD vis).fetched.map Prod.fst) := by
  intro fuel
  induction fuel with
  | zero => intro depth maxD url vis; simp [crawlAux]
  | succ n ih =>
    intro depth maxD url vis
    have hrec : GoodRec (fun url2 vis2 =>
        let o := crawlAux w n url2 (depth + 1) maxD vis2
        LinkOut.mk o.files o.visited o.fetched) := by
      intro url2 vis2
      exact ih (depth + 1) maxD url2 vis2
    cases hp : w.parse url with
    | none => simp [crawlAux, hp]
    | some p0 =>
      by_cases hdep : maxD < depth
      · simp [crawlAux, hp, hdep]
      · by_cases hmem : PURL.render { p0 with fragment := "" } ∈ vis
        · simp [crawlAux, hp, hdep, hmem]
        · cases hf : w.fetch (PURL.render { p0 with fragment := "" }) with
          | fetchFailed =>
              simp [crawlAux, hp, hdep, hf, hmem]
          | response page =>
              by_cases hst : page.status < 200 ∨ 300 ≤ page.status
              · simp [crawlAux, hp, hdep, hf, hst, hmem]
              · by_cases hct : strContainsSub (lowerAscii page.contentType) "text/html" = true
                · by_cases hgo : depth < maxD
                  · -- descend into the links
                    have hlout := crawlLinks_invariants
                      (w.resolve { p0 with fragment := "" })
                      (fun url2 vis2 =>
                        let o := crawlAux w n url2 (depth + 1) maxD vis2
                        LinkOut.mk o.files o.visited o.fetched)
                      hrec page.hrefs
                      (PURL.render { p0 with fragment := "" } :: vis)
                    obtain ⟨hlv, hlf, hln, hls⟩ := hlout
                    have hstep : crawlAux w (n + 1) url depth maxD vis =
                        ⟨(match page.conv with
                          | some markdown =>
                              [{ path := PURL.render { p0 with fragment := "" },
                                 size := markdown.utf8ByteSize,
                                 content := some markdown }]
                          | none => [])
                          ++ (crawlLinks (w.resolve { p0 with fragment := "" })
                              (fun url2 vis2 =>
                                let o := crawlAux w n url2 (depth + 1) maxD vis2
                                LinkOut.mk o.files o.visited o.fetched)
                              page.hrefs
                              (PURL.render { p0 with fragment := "" } :: vis)).files,
                          (crawlLinks (w.resolve { p0 with fragment := "" })
                              (fun url2 vis2 =>
                                let o := crawlAux w n url2 (depth + 1) maxD vis2
                                LinkOut.mk o.files o.visited o.fetched)
                              page.hrefs
                              (PURL.render { p0 with fragment := "" } :: vis)).visited,
                          (PURL.render { p0 with fragment := "" }, depth)
                            :: (crawlLinks (w.resolve { p0 with fragment := "" })
                              (fun url2 vis2 =>
                                let o := crawlAux w n url2 (depth + 1) maxD vis2
                                LinkOut.mk o.files o.visited o.fetched)
                              page.hrefs
                              (PURL.render { p0 with fragment := "" } :: vis)).fetched,
                          none⟩ := by
                      simp [crawlAux, hp, hdep, hf, hst, hct, hgo, hmem]
                    rw [hstep]
                    refine ⟨?_, ?_, ?_, ?_⟩
                    · dsimp only
                      rw [hlv]
                      simp [List.append_assoc]
                    · dsimp only
                      intro u hu
                      simp only [List.map_cons] at hu
                      rcases List.mem_cons.mp hu with h1 | h2
                      · subst h1; exact hmem
                      · intro hvin
                        exact hlf u h2 (List.mem_cons_of_mem _ hvin)
                    · dsimp only
                      simp only [List.map_cons]
                      refine List.nodup_cons.mpr ⟨?_, hln⟩
                      intro hin
                      exact hlf _ hin (List.mem_cons_self _ _)
                    · dsimp only
                      simp only [List.map_cons]
                      cases hconv : page.conv with
                      | some markdown =>
                          simpa using
                            List.Sublist.cons₂ (PURL.render { p0 with fragment := "" }) hls
                      | none =>
                          simpa using
                            List.Sublist.cons (PURL.render { p0 with fragment := "" }) hls
                  · -- at the depth ceiling: the page itself only
                    by_cases hconv2 : (page.conv).isSome = true
                    · obtain ⟨md, hmd⟩ := Option.isSome_iff_exists.mp hconv2
                      simp [crawlAux, hp, hdep, hf, hst, hct, hgo, hmd, hmem]
                    · have hnone : page.conv = none := by
                        cases hcv : page.conv
                        · rfl
                        · rw [hcv] at hconv2; simp at hconv2
                      simp [crawlAux, hp, hdep, hf, hst, hct, hgo, hnone, hmem]
                · simp [crawlAux, hp, hdep, hf, hst, hct, hmem]

/-- Helper: the depth bound on fetches lifts through the link loop. -/
theorem crawlLinks_depthBound (resolve : String → Option PURL)
    (recur : String → List String → LinkOut) (K : Nat)
    (hrec : ∀ url vis ud, ud ∈ (recur url vis).fetched → ud.2 ≤ K) :
    ∀ links vis ud, ud ∈ (crawlLinks resolve recur links vis).fetched → ud.2 ≤ K := by
  intro links
  induction links with
  | nil => intro vis ud h; simp [crawlLinks] at h
  | cons link rest ih =>
    intro vis ud h
    by_cases hskip : isSkippableHref link = true
    · rw [show crawlLinks resolve recur (link :: rest) vis
          = crawlLinks resolve recur rest vis by simp [crawlLinks, hskip]] at h
      exact ih vis ud h
    · cases hres : resolve link with
      | none =>
          rw [show crawlLinks resolve recur (link :: rest) vis
              = crawlLinks resolve recur rest vis by simp [crawlLinks, hskip, hres]] at h
          exact ih vis ud h
      | some r =>
          by_cases hf : followScheme r.scheme = true
          · rw [show crawlLinks resolve recur (link :: rest) vis =
                ⟨(recur r.render vis).files
                    ++ (crawlLinks resolve recur rest (recur r.render vis).visited).files,
                  (crawlLinks resolve recur rest (recur r.render vis).visited).visited,
                  (recur r.render vis).fetched
                    ++ (crawlLinks resolve recur rest (recur r.render vis).visited).fetched⟩
                by simp [crawlLinks, hskip, hres, hf]] at h
            rcases List.mem_append.mp h with h1 | h2
            · exact hrec _ _ ud h1
            · exact ih _ ud h2
          · rw [show crawlLinks resolve recur (link :: rest) vis
                = crawlLinks resolve recur rest vis by simp [crawlLinks, hskip, hres, hf]] at h
            exact ih vis ud h

/-- Helper: every fetch performed by `crawlAux` happens at a depth of at most
the configured ceiling — the crawler returns before fetching when the current
depth exceeds the ceiling, and only recurses (at depth + 1) when strictly
below it. -/
theorem crawlAux_depthBound (w : CrawlWorld) :
    ∀ fuel depth maxD url vis ud,
      ud ∈ (crawlAux w fuel url depth maxD vis).fetched → ud.2 ≤ maxD := by
  intro fuel
  induction fuel with
  | zero => intro depth maxD url vis ud h; simp [crawlAux] at h
  | succ n ih =>
    intro depth maxD url vis ud h
    cases hp : w.parse url with
    | none => rw [show crawlAux w (n + 1) url depth maxD vis
          = ⟨[], vis, [], some ("invalid start URL " ++ url)⟩
          by simp [crawlAux, hp]] at h; simp at h
    | some p0 =>
      by_cases hdep : maxD < depth
      · rw [show crawlAux w (n + 1) url depth maxD vis = ⟨[], vis, [], none⟩
            by simp [crawlAux, hp, hdep]] at h
        simp at h
      · by_cases hmem : PURL.render { p0 with fragment := "" } ∈ vis
        · rw [show crawlAux w (n + 1) url depth maxD vis = ⟨[], vis, [], none⟩
              by simp [crawlAux, hp, hdep, hmem]] at h
          simp at h
        · have hdle : depth ≤ maxD := by omega
          cases hf : w.fetch (PURL.render { p0 with fragment := "" }) with
          | fetchFailed =>
              rw [show crawlAux w (n + 1) url depth maxD vis
                  = ⟨[], PURL.render { p0 with fragment := "" } :: vis,
                      [(PURL.render { p0 with fragment := "" }, depth)], none⟩
                  by simp [crawlAux, hp, hdep, hmem, hf]] at h
              have hud : ud = (PURL.render { p0 with fragment := "" }, depth) := by simpa using h
              rw [hud]
              exact hdle
          | response page =>
              by_cases hst : page.status < 200 ∨ 300 ≤ page.status
              · rw [show crawlAux w (n + 1) url depth maxD vis
                    = ⟨[], PURL.render { p0 with fragment := "" } :: vis,
                        [(PURL.render { p0 with fragment := "" }, depth)], none⟩
                    by simp [crawlAux, hp, hdep, hmem, hf, hst]] at h
                have hud : ud = (PURL.render { p0 with fragment := "" }, depth) := by simpa using h
                rw [hud]
                exact hdle
              · by_cases hct : strContainsSub (lowerAscii page.contentType) "text/html" = true
                · by_cases hgo : depth < maxD
                  · have hrec2 : ∀ url2 vis2 ud2,
                        ud2 ∈ ((fun url3 vis3 =>
                          let o := crawlAux w n url3 (depth + 1) maxD vis3
                          LinkOut.mk o.files o.visited o.fetched) url2 vis2).fetched →
                          ud2.2 ≤ maxD := by
                      intro url2 vis2 ud2 h2
                      exact ih (depth + 1) maxD url2 vis2 ud2 h2
                    rw [show crawlAux w (n + 1) url depth maxD vis =
                        ⟨(match page.conv with
                          | some markdown =>
                              [{ path := PURL.render { p0 with fragment := "" },
                                 size := markdown.utf8ByteSize,
                                 content := some markdown }]
                          | none => [])
                          ++ (crawlLinks (w.resolve { p0 with fragment := "" })
                              (fun url3 vis3 =>
                                let o := crawlAux w n url3 (depth + 1) maxD vis3
                                LinkOut.mk o.files o.visited o.fetched)
                              page.hrefs
                              (PURL.render { p0 with fragment := "" } :: vis)).files,
                          (crawlLinks (w.resolve { p0 with fragment := "" })
                              (fun url3 vis3 =>
                                let o := crawlAux w n url3 (depth + 1) maxD vis3
                                LinkOut.mk o.files o.visited o.fetched)
                              page.hrefs
                              (PURL.render { p0 with fragment := "" } :: vis)).visited,
                          (PURL.render { p0 with fragment := "" }, depth)
                            :: (crawlLinks (w.resolve { p0 with fragment := "" })
                              (fun url3 vis3 =>
                                let o := crawlAux w n url3 (depth + 1) maxD vis3
                                LinkOut.mk o.files o.visited o.fetched)
                              page.hrefs
                              (PURL.render { p0 with fragment := "" } :: vis)).fetched,
                          none⟩
                        by simp [crawlAux, hp, hdep, hmem, hf, hst, hct, hgo]] at h
                    rcases List.mem_cons.mp h with h1 | h2
                    · rw [h1]; exact hdle
                    · exact crawlLinks_depthBound _ _ maxD hrec2 _ _ ud h2
                  · by_cases hconv2 : (page.conv).isSome = true
                    · obtain ⟨md, hmd⟩ := Option.isSome_iff_exists.mp hconv2
                      rw [show crawlAux w (n + 1) url depth maxD vis
                          = ⟨[{ path := PURL.render { p0 with fragment := "" },
                                size := md.utf8ByteSize, content := some md }],
                              PURL.render { p0 with fragment := "" } :: vis,
                              [(PURL.render { p0 with fragment := "" }, depth)], none⟩
                          by simp [crawlAux, hp, hdep, hmem, hf, hst, hct, hgo, hmd]] at h
                      have hud : ud = (PURL.render { p0 with fragment := "" }, depth) := by simpa using h
                      rw [hud]
                      exact hdle
                    · have hnone : page.conv = none := by
                        cases hcv : page.conv
                        · rfl
                        · rw [hcv] at hconv2; simp at hconv2
                      rw [show crawlAux w (n + 1) url depth maxD vis
                          = ⟨[], PURL.render { p0 with fragment := "" } :: vis,
                              [(PURL.render { p0 with fragment := "" }, depth)], none⟩
                          by simp [crawlAux, hp, hdep, hmem, hf, hst, hct, hgo, hnone]] at h
                      have hud : ud = (PURL.render { p0 with fragment := "" }, depth) := by simpa using h
                      rw [hud]
                      exact hdle
                · rw [show crawlAux w (n + 1) url depth maxD vis
                      = ⟨[], PURL.render { p0 with fragment := "" } :: vis,
                          [(PURL.render { p0 with fragment := "" }, depth)], none⟩
                      by simp [crawlAux, hp, hdep, hmem, hf, hst, hct]] at h
                  have hud : ud = (PURL.render { p0 with fragment := "" }, depth) := by simpa using h
                  rw [hud]
                  exact hdle

/-- C1 (code bug): the recursion guard compares the resolved scheme against
the literal `"https://"` (crawl source line 111), which `url.Parse` can never
produce as a scheme — schemes are nonempty strings of letters, digits, `+`,
`-`, `.` — so links resolving to `https` URLs are never followed, contrary to
the claim, the spec, and the code's own comment ("Only process HTTP/HTTPS
URLs").  Concretely: page A links to an https page B (resolvable and
fetchable, final two conjuncts) and an http page C; the crawl fetches A and C
but never B. -/
theorem c1_https_scheme_bug :
    followScheme "http" = true ∧
    followScheme "https" = false ∧
    validGoScheme "https" = true ∧
    validGoScheme "https://" = false ∧
    (processWebURLRecursive schemeWorld "http://a.example/" 3).fetched.map Prod.fst
        = ["http://a.example/", "http://c.example/"] ∧
    "https://b.example/x"
        ∉ (processWebURLRecursive schemeWorld "http://a.example/" 3).fetched.map Prod.fst ∧
    schemeWorld.fetch "https://b.example/x"
        = .response ⟨200, "text/html", some "B page", []⟩ ∧
    schemeWorld.resolve ⟨"http", "a.example/", ""⟩ "https://b.example/x"
        = some ⟨"https", "b.example/x", ""⟩ := by
  refine ⟨by decide, by decide, by decide, by decide, by decide, by decide, by decide, by decide⟩

/-- C2: with ceiling K every fetch happens at depth at most K, and every
entry's URL was fetched at some depth at most K; in the concrete scenario
where P links to Q and Q links to R, with ceiling 1 the entries are exactly
P and Q and R is never fetched. -/
theorem c2_crawl_depth_bound :
    (∀ (w : CrawlWorld) (url : String) (K : Nat) (ud : String × Nat),
        ud ∈ (processWebURLRecursive w url K).fetched → ud.2 ≤ K) ∧
    (∀ (w : CrawlWorld) (url : String) (K : Nat) (e : FileInfo),
        e ∈ (processWebURLRecursive w url K).files →
          ∃ d, (e.path, d) ∈ (processWebURLRecursive w url K).fetched ∧ d ≤ K) ∧
    (processWebURLRecursive depthWorld "http://p.example/" 1).files.map FileInfo.path
        = ["http://p.example/", "http://q.example/"] ∧
    "http://r.example/"
        ∉ (processWebURLRecursive depthWorld "http://p.example/" 1).fetched.map Prod.fst := by
  refine ⟨?_, ?_, by decide, by decide⟩
  · intro w url K ud h
    exact crawlAux_depthBound w (K + 1) 0 K url [] ud h
  · intro w url K e he
    have hs := (crawlAux_invariants w (K + 1) 0 K url []).2.2.2
    have hpath : e.path ∈ (processWebURLRecursive w url K).fetched.map Prod.fst :=
      hs.subset (List.mem_map_of_mem FileInfo.path he)
    obtain ⟨ud, hud, heq⟩ := List.mem_map.mp hpath
    refine ⟨ud.2, ?_, crawlAux_depthBound w (K + 1) 0 K url [] ud hud⟩
    rw [← heq]
    simpa using hud

/-- C2 witness: in the P-Q-R scenario with ceiling 1, Q's entry was fetched at
some depth at most 1. -/
theorem c2_crawl_depth_bound_witness :
    ∃ d, ("http://q.example/", d)
        ∈ (processWebURLRecursive depthWorld "http://p.example/" 1).fetched ∧ d ≤ 1 := by
  refine c2_crawl_depth_bound.2.1 depthWorld "http://p.example/" 1
    { path := "http://q.example/", size := 6, content := some "Q page" } ?_
  decide

/-- C3: within one crawl invocation no canonical URL is fetched twice (the
fetch trace has no duplicates) and no canonical URL contributes two entries
(the entry paths, a sublist of the fetch trace, have no duplicates) — for
every world, start URL and ceiling. -/
theorem c3_crawl_idempotence (w : CrawlWorld) (startURL : String) (maxDepth : Nat) :
    ((processWebURLRecursive w startURL maxDepth).fetched.map Prod.fst).Nodup ∧
    ((processWebURLRecursive w startURL maxDepth).files.map FileInfo.path).Nodup := by
  have h := crawlAux_invariants w (maxDepth + 1) 0 maxDepth startURL []
  exact ⟨h.2.2.1, h.2.2.1.sublist h.2.2.2⟩

/-- C4: a non-2xx response is a skip, not an error.  The crawl's error return
is `none` whenever the start URL parses (recursive calls' errors are discarded
at the call site, so they never propagate); in the concrete scenario, P links
to Q (which answers 404) and then to S: the crawl still yields P's and S's
entries, no entry carries a failure, Q was fetched (and skipped) without
aborting the sibling S; and with Q as the only link the crawl of P yields
exactly P. -/
theorem c4_non2xx_is_skip :
    (∀ (w : CrawlWorld) (url : String) (K : Nat),
        (processWebURLRecursive w url K).error = none ↔ (w.parse url).isSome = true) ∧
    (processWebURLRecursive errWorld "http://p.example/" 1).files.map FileInfo.path
        = ["http://p.example/", "http://s.example/"] ∧
    (processWebURLRecursive errWorld "http://p.example/" 1).files.all
        (fun e => e.error == none) = true ∧
    ("http://q.example/", 1) ∈ (processWebURLRecursive errWorld "http://p.example/" 1).fetched ∧
    (processWebURLRecursive errWorldB "http://p.example/" 1).files.map FileInfo.path
        = ["http://p.example/"] := by
  refine ⟨?_, by decide, by decide, by decide, by decide⟩
  intro w url K
  simp only [processWebURLRecursive]
  cases hp : w.parse url with
  | none => simp [crawlAux, hp]
  | some p0 =>
    have herr : (crawlAux w (K + 1) url 0 K []).error = none := by
      have hmem : PURL.render { p0 with fragment := "" } ∉ ([] : List String) := by simp
      cases hf : w.fetch (PURL.render { p0 with fragment := "" }) with
      | fetchFailed => simp [crawlAux, hp, hmem, hf]
      | response page =>
        by_cases hst : page.status < 200 ∨ 300 ≤ page.status
        · simp [crawlAux, hp, hmem, hf, hst]
        · by_cases hct : strContainsSub (lowerAscii page.contentType) "text/html" = true
          · by_cases hgo : 0 < K
            · simp [crawlAux, hp, hmem, hf, hst, hct, hgo]
            · cases hcv : page.conv <;>
                simp [crawlAux, hp, hmem, hf, hst, hct, hgo, hcv]
          · simp [crawlAux, hp, hmem, hf, hst, hct]
    rw [herr]
    simp [hp]

/-- Helper: a string with utf8 byte length zero is empty. -/
theorem utf8ByteSize_zero_imp (s : String) (h : s.utf8ByteSize = 0) : s = "" := by
  cases s with
  | mk data =>
    cases data with
    | nil => rfl
    | cons c cs =>
      exfalso
      have h1 : 0 < c.utf8Size := Char.utf8Size_pos c
      simp [String.utf8ByteSize, String.utf8ByteSize.go] at h
      omega

/-- C8: for every entry handled by the enrichment worker: directory entries
pass through unchanged; a file entry whose content is obtained (pre-loaded or
read from disk) ends with metric equal to the tokenizer's count of that
content and an unchanged (absent, for pipeline entries) failure; a file entry
with no pre-loaded content whose read fails ends with the failure attached and
the metric untouched; and a worker delivers exactly one result per job, never
dropping an entry.  The hypothesis `countTokens "" = 0` reflects the
tokenizers the program ships (both report zero tokens for empty text); the
worker short-circuits empty content to metric zero without consulting the
tokenizer. -/
theorem c8_enrichment_worker (countTokens : String → Nat)
    (readFile : String → Except String String)
    (hempty : countTokens "" = 0) :
    (∀ file : FileInfo, file.isDir = true →
        tokenWorkerStep countTokens readFile file = file) ∧
    (∀ file : FileInfo, file.isDir = false → ∀ c, obtainContent readFile file = .ok c →
        tokenWorkerStep countTokens readFile file
            = { file with tokenCount := countTokens c } ∧
        (tokenWorkerStep countTokens readFile file).error = file.error) ∧
    (∀ file : FileInfo, file.isDir = false → file.content = none →
        ∀ e, readFile file.path = .error e →
        (tokenWorkerStep countTokens readFile file).error = some e ∧
        (tokenWorkerStep countTokens readFile file).tokenCount = file.tokenCount) ∧
    (∀ jobs : List FileInfo,
        (tokenWorkerRun countTokens readFile jobs).length = jobs.length) := by
  refine ⟨?_, ?_, ?_, ?_⟩
  · intro file hdir
    simp [tokenWorkerStep, hdir]
  · intro file hdir c hc
    cases hcont : file.content with
    | some c0 =>
        have hceq : c0 = c := by
          simp [obtainContent, hcont] at hc
          exact hc
        subst hceq
        by_cases hsz : 0 < c0.utf8ByteSize
        · constructor
          · simp [tokenWorkerStep, hdir, hcont, hsz]
          · simp [tokenWorkerStep, hdir, hcont, hsz]
        · have h0 : c0 = "" := utf8ByteSize_zero_imp c0 (by omega)
          subst h0
          constructor
          · simp [tokenWorkerStep, hdir, hcont, hempty]
          · simp [tokenWorkerStep, hdir, hcont, hsz]
    | none =>
        have hread : readFile file.path = .ok c := by
          simpa [obtainContent, hcont] using hc
        by_cases hsz : 0 < c.utf8ByteSize
        · constructor
          · simp [tokenWorkerStep, hdir, hcont, hread, hsz]
          · simp [tokenWorkerStep, hdir, hcont, hread, hsz]
        · have h0 : c = "" := utf8ByteSize_zero_imp c (by omega)
          subst h0
          constructor
          · simp [tokenWorkerStep, hdir, hcont, hread, hempty]
          · simp [tokenWorkerStep, hdir, hcont, hread, hsz]
  · intro file hdir hcont e he
    constructor
    · simp [tokenWorkerStep, hdir, hcont, he]
    · simp [tokenWorkerStep, hdir, hcont, he]
  · intro jobs
    simp [tokenWorkerRun]

/-- C8 witness: with a concrete tokenizer and disk, a readable file ends with
metric 3 and no failure, a file whose read fails ends with the failure
attached and metric untouched, and a directory passes through unchanged. -/
theorem c8_enrichment_worker_witness :
    tokenWorkerStep witCount witRead { path := "/r/ok.go", size := 3 }
        = { path := "/r/ok.go", size := 3, tokenCount := 3 } ∧
    (tokenWorkerStep witCount witRead { path := "/r/bad.go", size := 10 }).error
        = some "permission denied" ∧
    tokenWorkerStep witCount witRead { path := "/r/d", size := 0, isDir := true }
        = { path := "/r/d", size := 0, isDir := true } := by
  have h := c8_enrichment_worker witCount witRead (by decide)
  refine ⟨?_, ?_, ?_⟩
  · have h2 := (h.2.1 { path := "/r/ok.go", size := 3 } rfl "abc" rfl).1
    rw [h2]
    decide
  · exact (h.2.2.1 { path := "/r/bad.go", size := 10 } rfl rfl
      "permission denied" rfl).1
  · exact h.1 { path := "/r/d", size := 0, isDir := true } rfl

/-- Helper: closed form of the aggregation fold. -/
theorem aggregateSummary_foldl (d : Bool) :
    ∀ (files : List FileInfo) (acc : Summary),
      files.foldl (aggregateStep d) acc =
        ⟨acc.totalFiles + (files.filter (fun f => !f.isDir)).length,
         acc.totalSize + ((files.filter (fun f => !f.isDir)).map FileInfo.size).sum,
         acc.totalTokens + ((files.filter (fun f => !f.isDir)).map
             (fun f => if d then 0 else f.tokenCount)).sum⟩ := by
  intro files
  induction files with
  | nil => intro acc; simp
  | cons f fs ih =>
    intro acc
    cases hdir : f.isDir with
    | true =>
        rw [List.foldl_cons, ih]
        simp [aggregateStep, hdir]
    | false =>
        rw [List.foldl_cons, ih]
        simp [aggregateStep, hdir, Summary.mk.injEq]
        omega

/-- Helper: entries carrying a failure have metric zero, so restricting the
metric sum to unfailed file entries does not change it. -/
theorem sum_tokens_failed_zero :
    ∀ files : List FileInfo,
      (∀ f ∈ files, f.error ≠ none → f.tokenCount = 0) →
      ((files.filter (fun f => !f.isDir)).map FileInfo.tokenCount).sum
        = ((files.filter (fun f => !f.isDir && f.error == none)).map FileInfo.tokenCount).sum := by
  intro files
  induction files with
  | nil => intro _; simp
  | cons f fs ih =>
    intro h
    have hrest := ih (fun g hg hge => h g (List.mem_cons_of_mem f hg) hge)
    cases hdir : f.isDir with
    | true => simp [hdir, hrest]
    | false =>
      cases herr : f.error with
      | none => simp [hdir, herr, hrest]
      | some e =>
        have h0 : f.tokenCount = 0 := h f (List.mem_cons_self f fs) (by simp [herr])
        simp [hdir, herr, h0, hrest]

/-- C9: the aggregated summary counts exactly the file (non-directory)
entries, sums exactly their sizes, and (when token counting is enabled) sums
exactly their metrics — equivalently, given that entries carrying a failure
have their metric unset (zero), the metric sum over unfailed file entries —
while directory entries contribute to none of the totals; and all totals are
invariant under any permutation of the processed entry list, hence
independent of worker count and scheduling order. -/
theorem c9_aggregator_sum_laws (disableTokens : Bool) (files : List FileInfo)
    (hfail : ∀ f ∈ files, f.error ≠ none → f.tokenCount = 0) :
    (aggregateSummary disableTokens files).totalFiles
        = (files.filter (fun f => !f.isDir)).length ∧
    (aggregateSummary disableTokens files).totalSize
        = ((files.filter (fun f => !f.isDir)).map FileInfo.size).sum ∧
    (disableTokens = false →
      (aggregateSummary disableTokens files).totalTokens
          = ((files.filter (fun f => !f.isDir)).map FileInfo.tokenCount).sum ∧
      (aggregateSummary disableTokens files).totalTokens
          = ((files.filter (fun f => !f.isDir && f.error == none)).map
              FileInfo.tokenCount).sum) ∧
    (∀ files₂, files.Perm files₂ →
        aggregateSummary disableTokens files₂ = aggregateSummary disableTokens files) := by
  have he := aggregateSummary_foldl disableTokens files ⟨0, 0, 0⟩
  refine ⟨?_, ?_, ?_, ?_⟩
  · rw [aggregateSummary, he]
    simp
  · rw [aggregateSummary, he]
    simp
  · intro hd
    subst hd
    constructor
    · rw [aggregateSummary, he]
      simp
    · rw [aggregateSummary, he]
      simp [sum_tokens_failed_zero files hfail]
  · intro files₂ hperm
    have he2 := aggregateSummary_foldl disableTokens files₂ ⟨0, 0, 0⟩
    rw [aggregateSummary, aggregateSummary, he, he2]
    have hp := hperm.filter (fun f => !f.isDir)
    rw [Summary.mk.injEq]
    refine ⟨?_, ?_, ?_⟩
    · rw [hp.length_eq]
    · rw [(hp.map FileInfo.size).sum_eq]
    · rw [(hp.map (fun f => if disableTokens then 0 else f.tokenCount)).sum_eq]

/-- C9 witness: on a concrete list with a file, a directory and a failed file
entry, the totals are 2 files, 60 bytes, 7 tokens, and reversing the list
leaves the summary unchanged. -/
theorem c9_aggregator_sum_laws_witness :
    (aggregateSummary false witFiles).totalFiles = 2 ∧
    (aggregateSummary false witFiles).totalSize = 60 ∧
    (aggregateSummary false witFiles).totalTokens = 7 ∧
    aggregateSummary false witFiles.reverse = aggregateSummary false witFiles := by
  have h := c9_aggregator_sum_laws false witFiles (by decide)
  refine ⟨?_, ?_, ?_, h.2.2.2 witFiles.reverse (witFiles.reverse_perm).symm⟩
  · rw [h.1]; decide
  · rw [h.2.1]; decide
  · rw [(h.2.2.1 rfl).1]; decide

/-- Helper: a directory at or beyond a positive depth ceiling is pruned —
whatever the earlier rules would have said, every branch the walk can take for
it answers `fs.SkipDir`, visits nothing below it and keeps nothing. -/
theorem walkNode_dir_depth_prune (cfg : WalkCfg) (rootPath relPath name : String)
    (children : List FSTree) (h1 : 0 < cfg.maxDepth)
    (h2 : cfg.maxDepth ≤ (countPathSeparators relPath : Int)) :
    walkNode cfg rootPath relPath (.dir name children) = ([], [⟨relPath, true, true⟩]) := by
  simp only [walkNode]
  split
  · rfl
  · split
    · rfl
    · rw [if_pos ⟨h1, h2⟩]

/-- Helper: the walk of a directory either prunes it (one trace item, no
entries) or descends into its children. -/
theorem walkNode_dir_cases (cfg : WalkCfg) (rootPath relPath name : String)
    (children : List FSTree) :
    walkNode cfg rootPath relPath (.dir name children) = ([], [⟨relPath, true, true⟩]) ∨
    walkNode cfg rootPath relPath (.dir name children)
        = ((walkForest cfg rootPath relPath children).1,
           ⟨relPath, true, false⟩ :: (walkForest cfg rootPath relPath children).2) := by
  simp only [walkNode]
  split
  · exact Or.inl rfl
  · split
    · exact Or.inl rfl
    · split
      · exact Or.inl rfl
      · split
        · exact Or.inl rfl
        · exact Or.inr rfl

/-- Helper: the walk of a file visits exactly the file and keeps either
nothing or the file's entry. -/
theorem walkNode_file_cases (cfg : WalkCfg) (rootPath relPath name : String) (size : Nat) :
    walkNode cfg rootPath relPath (.file name size) = ([], [⟨relPath, false, false⟩]) ∨
    walkNode cfg rootPath relPath (.file name size)
        = ([{ path := rootPath ++ "/" ++ relPath, size := size }],
           [⟨relPath, false, false⟩]) := by
  simp only [walkNode]
  split
  · exact Or.inl rfl
  · split
    · exact Or.inl rfl
    · split
      · exact Or.inl rfl
      · split
        · exact Or.inl rfl
        · split
          · exact Or.inl rfl
          · exact Or.inr rfl

/-- Helper: the handling of a visited file never consults the depth ceiling. -/
theorem walkNode_file_maxDepth (cfg : WalkCfg) (rootPath relPath name : String)
    (size : Nat) (d1 d2 : Int) :
    walkNode { cfg with maxDepth := d1 } rootPath relPath (.file name size)
        = walkNode { cfg with maxDepth := d2 } rootPath relPath (.file name size) := by
  simp only [walkNode, keepFileFlag]

/-- C6: with a positive depth ceiling, a directory whose root-relative depth
(count of path separators in its relative path) is at or beyond the ceiling is
pruned together with its whole subtree, while a file's handling never consults
the ceiling (it is still evaluated by the exclude, include/language and size
rules).  Concretely, with ceiling 1 the file `d/f.go` at depth 1 (the ceiling)
is kept, the directory `d/e` at depth 1 is pruned, and nothing below `d/e` is
ever visited. -/
theorem c6_depth_ceiling :
    (∀ (cfg : WalkCfg) (rootPath relPath name : String) (children : List FSTree),
        0 < cfg.maxDepth → cfg.maxDepth ≤ (countPathSeparators relPath : Int) →
        walkNode cfg rootPath relPath (.dir name children)
            = ([], [⟨relPath, true, true⟩])) ∧
    (∀ (cfg : WalkCfg) (rootPath relPath name : String) (size : Nat) (d1 d2 : Int),
        walkNode { cfg with maxDepth := d1 } rootPath relPath (.file name size)
            = walkNode { cfg with maxDepth := d2 } rootPath relPath (.file name size)) ∧
    (walkDirectory depthCfg "/r" depthForest).1 = [{ path := "/r/d/f.go", size := 5 }] ∧
    countPathSeparators "d/f.go" = 1 ∧
    depthCfg.maxDepth = 1 ∧
    TraceItem.mk "d/e" true true ∈ (walkDirectory depthCfg "/r" depthForest).2 ∧
    TraceItem.mk "d/e/g.go" false false ∉ (walkDirectory depthCfg "/r" depthForest).2 := by
  refine ⟨?_, ?_, by decide, by decide, by decide, by decide, by decide⟩
  · intro cfg rootPath relPath name children h1 h2
    exact walkNode_dir_depth_prune cfg rootPath relPath name children h1 h2
  · intro cfg rootPath relPath name size d1 d2
    exact walkNode_file_maxDepth cfg rootPath relPath name size d1 d2

/-- C6 witness: the directory `d/e`, at depth 1 with ceiling 1, is pruned with
its whole subtree. -/
theorem c6_depth_ceiling_witness :
    walkNode depthCfg "/r" "d/e" (.dir "e" [.file "g.go" 7])
        = ([], [⟨"d/e", true, true⟩]) :=
  c6_depth_ceiling.1 depthCfg "/r" "d/e" "e" [.file "g.go" 7] (by decide) (by decide)

/-- Helper: strings with equal character lists are equal. -/
theorem strExt (a b : String) (h : a.data = b.data) : a = b := by
  cases a; cases b; exact congrArg String.mk h

/-- Helper: the facts packaged by `validNameB`. -/
theorem validNameB_spec (n : String) (h : validNameB n = true) :
    n.data ≠ [] ∧ '/' ∉ n.data ∧ n ≠ "." ∧ n ≠ ".." := by
  simp only [validNameB, Bool.and_eq_true, bne_iff_ne, ne_eq, Bool.not_eq_true'] at h
  obtain ⟨⟨⟨h1, h2⟩, h3⟩, h4⟩ := h
  refine ⟨?_, ?_, h2, h3⟩
  · intro hd
    exact h1 (strExt n "" (by simpa using hd))
  · simpa using h4

/-- Helper: `takeWhile` keeps exactly a block of satisfying elements in front
of a failing one. -/
theorem takeWhile_all_append (p : Char → Bool) :
    ∀ (l : List Char) (a : Char) (r : List Char), (∀ c ∈ l, p c = true) → p a = false →
      (l ++ a :: r).takeWhile p = l := by
  intro l
  induction l with
  | nil =>
      intro a r _ ha
      simp [List.takeWhile_cons, ha]
  | cons c t ih =>
      intro a r hall ha
      have hc : p c = true := hall c (List.mem_cons_self c t)
      simp [List.takeWhile_cons, hc,
        ih a r (fun d hd => hall d (List.mem_cons_of_mem c hd)) ha]

/-- Helper: the base of a well-formed name standing alone is the name. -/
theorem goBase_valid (n : String) (hn : validNameB n = true) : goBase n = n := by
  obtain ⟨hne, hsl, _, _⟩ := validNameB_spec n hn
  have hbeq : (n == "") = false := by
    rw [beq_eq_false_iff_ne]
    intro h0
    exact hne (by rw [h0])
  obtain ⟨c, rest, hcr⟩ : ∃ c rest, n.data.reverse = c :: rest := by
    cases hrev : n.data.reverse with
    | nil => exact absurd (by simpa using congrArg List.reverse hrev) hne
    | cons c rest => exact ⟨c, rest, rfl⟩
  have hcmem : c ∈ n.data := by
    rw [← List.mem_reverse, hcr]
    exact List.mem_cons_self c rest
  have hcslash : (c == '/') = false := by
    rw [beq_eq_false_iff_ne]
    intro h0
    exact hsl (h0 ▸ hcmem)
  have hall : ∀ d ∈ n.data.reverse, (d != '/') = true := by
    intro d hd
    simp only [bne_iff_ne, ne_eq]
    intro h0
    exact hsl (h0 ▸ (List.mem_reverse.mp hd))
  simp only [goBase, hbeq, Bool.false_eq_true, if_false]
  rw [hcr]
  rw [List.dropWhile_cons, hcslash]
  simp only [Bool.false_eq_true, if_false]
  rw [← hcr, List.takeWhile_eq_self_iff.mpr hall, List.reverse_reverse]
  have hnonempty : n.data.isEmpty = false := by
    cases hd : n.data with
    | nil => exact absurd hd hne
    | cons x xs => rfl
  rw [hnonempty]
  simp only [Bool.false_eq_true, if_false]

/-- Helper: the base of a path ending in a slash and a well-formed name is
that name. -/
theorem goBase_append (p n : String) (hn : validNameB n = true) :
    goBase (p ++ "/" ++ n) = n := by
  obtain ⟨hne, hsl, _, _⟩ := validNameB_spec n hn
  have hdata : (p ++ "/" ++ n).data = p.data ++ '/' :: n.data := by
    simp [String.data_append]
  have hbeq : ((p ++ "/" ++ n) == "") = false := by
    rw [beq_eq_false_iff_ne]
    intro h0
    have h1 : (p ++ "/" ++ n).data = [] := by rw [h0]
    rw [hdata] at h1
    simp at h1
  obtain ⟨c, rest, hcr⟩ : ∃ c rest, n.data.reverse = c :: rest := by
    cases hrev : n.data.reverse with
    | nil => exact absurd (by simpa using congrArg List.reverse hrev) hne
    | cons c rest => exact ⟨c, rest, rfl⟩
  have hcmem : c ∈ n.data := by
    rw [← List.mem_reverse, hcr]
    exact List.mem_cons_self c rest
  have hcslash : (c == '/') = false := by
    rw [beq_eq_false_iff_ne]
    intro h0
    exact hsl (h0 ▸ hcmem)
  have hall : ∀ d ∈ n.data.reverse, (d != '/') = true := by
    intro d hd
    simp only [bne_iff_ne, ne_eq]
    intro h0
    exact hsl (h0 ▸ (List.mem_reverse.mp hd))
  simp only [goBase, hbeq, Bool.false_eq_true, if_false]
  rw [hdata]
  have hrev : (p.data ++ '/' :: n.data).reverse = n.data.reverse ++ '/' :: p.data.reverse := by
    simp [List.reverse_append]
  rw [hrev, hcr]
  rw [show (c :: rest) ++ '/' :: p.data.reverse = c :: (rest ++ '/' :: p.data.reverse) by simp]
  rw [List.dropWhile_cons, hcslash]
  simp only [Bool.false_eq_true, if_false]
  rw [show c :: (rest ++ '/' :: p.data.reverse) = (c :: rest) ++ '/' :: p.data.reverse by simp]
  rw [← hcr]
  rw [takeWhile_all_append _ n.data.reverse '/' p.data.reverse hall (by simp),
    List.reverse_reverse]
  have hnonempty : n.data.isEmpty = false := by
    cases hd : n.data with
    | nil => exact absurd hd hne
    | cons x xs => rfl
  rw [hnonempty]
  simp only [Bool.false_eq_true, if_false]

/-- Helper: on a well-formed name the hidden test is exactly "the name starts
with a dot". -/
theorem isHidden_eq_startsWith (n : String) (hn : validNameB n = true) :
    isHidden n = strStartsWith n "." := by
  obtain ⟨hne, _, hdot, hdot2⟩ := validNameB_spec n hn
  have hb1 : (n == ".") = false := by rw [beq_eq_false_iff_ne]; exact hdot
  have hb2 : (n == "..") = false := by rw [beq_eq_false_iff_ne]; exact hdot2
  simp only [isHidden, hb1, hb2, Bool.or_self, Bool.false_eq_true, if_false,
    Bool.or_false, Bool.false_or]
  rw [goBase_valid n hn]
  cases hd : n.data with
  | nil => exact absurd hd hne
  | cons c t =>
      simp only [strStartsWith, hd]
      show (c == '.') = List.isPrefixOf ['.'] (c :: t)
      simp only [List.isPrefixOf, Bool.and_true]
      by_cases hc : c = '.'
      · simp [hc]
      · simp [hc, Ne.symm hc]

/-- Helper: a positive answer of `matchesAnyPattern` names a matching
pattern. -/
theorem matchesAnyPattern_true (gm : String → String → Option Bool) (n : String) :
    ∀ ps, matchesAnyPattern gm n ps = .ok true → ∃ p ∈ ps, gm p n = some true := by
  intro ps
  induction ps with
  | nil => intro h; simp [matchesAnyPattern] at h
  | cons p ps ih =>
      intro h
      simp only [matchesAnyPattern] at h
      cases hg : gm p n with
      | none => rw [hg] at h; simp at h
      | some b =>
          cases b with
          | false =>
              rw [hg] at h
              simp only at h
              obtain ⟨q, hq, hgq⟩ := ih h
              exact ⟨q, List.mem_cons_of_mem p hq, hgq⟩
          | true => exact ⟨p, List.mem_cons_self p ps, hg⟩

/-- Helper: when no pattern is malformed for this name, `matchesAnyPattern`
does not report a bad pattern. -/
theorem matchesAnyPattern_noerr (gm : String → String → Option Bool) (n : String) :
    ∀ ps, (∀ p ∈ ps, gm p n ≠ none) → matchesAnyPattern gm n ps ≠ .badPattern := by
  intro ps
  induction ps with
  | nil => intro _ h; simp [matchesAnyPattern] at h
  | cons p ps ih =>
      intro hno h
      simp only [matchesAnyPattern] at h
      cases hg : gm p n with
      | none => exact hno p (List.mem_cons_self p ps) hg
      | some b =>
          cases b with
          | false =>
              rw [hg] at h
              simp only at h
              exact ih (fun q hq => hno q (List.mem_cons_of_mem p hq)) h
          | true => rw [hg] at h; simp at h

/-- Helper: a negative answer of `matchesAnyPattern` means no pattern
matched. -/
theorem matchesAnyPattern_false (gm : String → String → Option Bool) (n : String) :
    ∀ ps, matchesAnyPattern gm n ps = .ok false → ∀ p ∈ ps, gm p n ≠ some true := by
  intro ps
  induction ps with
  | nil => intro _ p hp; simp at hp
  | cons p ps ih =>
      intro h q hq
      simp only [matchesAnyPattern] at h
      cases hg : gm p n with
      | none => rw [hg] at h; simp at h
      | some b =>
          cases b with
          | false =>
              rw [hg] at h
              simp only at h
              rcases List.mem_cons.mp hq with hq1 | hq2
              · subst hq1; rw [hg]; simp
              · exact ih h q hq2
          | true => rw [hg] at h; simp at h

/-- Helper: the flag a caller uses is `true` exactly for a positive match
answer. -/
theorem matchRes_toBool_true (r : MatchRes) (h : r.toBool = true) : r = .ok true := by
  cases r with
  | ok b => cases b with
      | true => rfl
      | false => simp [MatchRes.toBool] at h
  | badPattern => simp [MatchRes.toBool] at h

/-- Helper: a flag of `false` together with a well-formed pattern list means
the scan answered `ok false`. -/
theorem matchRes_toBool_false (gm : String → String → Option Bool) (n : String)
    (ps : List String) (hno : ∀ p ∈ ps, gm p n ≠ none)
    (h : (matchesAnyPattern gm n ps).toBool = false) :
    matchesAnyPattern gm n ps = .ok false := by
  cases hr : matchesAnyPattern gm n ps with
  | ok b =>
      cases b with
      | true => rw [hr] at h; simp [MatchRes.toBool] at h
      | false => rfl
  | badPattern => exact absurd hr (matchesAnyPattern_noerr gm n ps hno)

mutual

/-- Helper: every entry kept from walking one subtree is a file entry whose
base name passed the hidden test, matched no exclude pattern (as the scan
reports), passed the include rule when include globs are configured, and
passed the size ceiling. -/
theorem walkNode_kept (cfg : WalkCfg) (rootPath : String) :
    ∀ (t : FSTree) (relPath : String), treeOkB t = true →
      (relPath = FSTree.name t ∨ ∃ q, relPath = q ++ "/" ++ FSTree.name t) →
      ∀ e ∈ (walkNode cfg rootPath relPath t).1,
        ∃ pre name size, validNameB name = true ∧
          e = { path := pre ++ "/" ++ name, size := size } ∧
          (!cfg.showHidden && isHidden name) = false ∧
          (matchesAnyPattern cfg.goMatch name cfg.excludes).toBool = false ∧
          (cfg.includes ≠ [] →
            (matchesAnyPattern cfg.goMatch name cfg.includes).toBool = true) ∧
          ¬(0 < cfg.maxSizeBytes ∧ cfg.maxSizeBytes < (size : Int))
  | .file name size => fun relPath hok hrel e he => by
      simp only [walkNode] at he
      split at he
      · simp at he
      · split at he
        · simp at he
        · split at he
          · simp at he
          · split at he
            · simp at he
            · split at he
              · simp at he
              · rename_i h1 h2 h3 h4 h5
                have hval : validNameB name = true := by simpa [treeOkB] using hok
                have hee : e = { path := rootPath ++ "/" ++ relPath, size := size } := by
                  simpa using he
                simp only [FSTree.name] at hrel
                have ghid : (!cfg.showHidden && isHidden name) = false := by simpa using h1
                have gexc : (matchesAnyPattern cfg.goMatch name cfg.excludes).toBool
                    = false := by simpa using h3
                have gincl : cfg.includes ≠ [] →
                    (matchesAnyPattern cfg.goMatch name cfg.includes).toBool = true := by
                  intro hne2
                  have hi : cfg.includes.isEmpty = false := by
                    simpa [List.isEmpty_iff] using hne2
                  have hkeep : keepFileFlag cfg rootPath relPath name = true := by
                    simpa using h4
                  simpa [keepFileFlag, hi] using hkeep
                rcases hrel with hrel | ⟨q, hq⟩
                · refine ⟨rootPath, name, size, hval, ?_, ghid, gexc, gincl, h5⟩
                  rw [hee, hrel]
                · refine ⟨rootPath ++ "/" ++ q, name, size, hval, ?_, ghid, gexc, gincl, h5⟩
                  rw [hee, hq]
                  have hassoc : rootPath ++ "/" ++ (q ++ "/" ++ name)
                      = (rootPath ++ "/" ++ q) ++ "/" ++ name := by
                    apply strExt
                    simp [String.data_append]
                  rw [hassoc]
  | .dir name children => fun relPath hok hrel e he => by
      rcases walkNode_dir_cases cfg rootPath relPath name children with hc | hc
      · rw [hc] at he; simp at he
      · rw [hc] at he
        have hfok : forestOkB children = true := by
          simp only [treeOkB, Bool.and_eq_true] at hok
          exact hok.2
        exact walkForest_kept cfg rootPath children relPath hfok e (by simpa using he)

/-- Helper: the forest-level version of `walkNode_kept`. -/
theorem walkForest_kept (cfg : WalkCfg) (rootPath : String) :
    ∀ (ts : List FSTree) (parentRel : String), forestOkB ts = true →
      ∀ e ∈ (walkForest cfg rootPath parentRel ts).1,
        ∃ pre name size, validNameB name = true ∧
          e = { path := pre ++ "/" ++ name, size := size } ∧
          (!cfg.showHidden && isHidden name) = false ∧
          (matchesAnyPattern cfg.goMatch name cfg.excludes).toBool = false ∧
          (cfg.includes ≠ [] →
            (matchesAnyPattern cfg.goMatch name cfg.includes).toBool = true) ∧
          ¬(0 < cfg.maxSizeBytes ∧ cfg.maxSizeBytes < (size : Int))
  | [] => fun parentRel _ e he => by simp [walkForest] at he
  | t :: ts => fun parentRel hok e he => by
      have hok' : treeOkB t = true ∧ forestOkB ts = true := by
        simp only [forestOkB, Bool.and_eq_true] at hok
        exact ⟨hok.1.1, hok.2⟩
      simp only [walkForest] at he
      rcases List.mem_append.mp (by simpa using he) with h1 | h2
      · refine walkNode_kept cfg rootPath t (childRel parentRel (FSTree.name t))
          hok'.1 ?_ e h1
        by_cases hp : parentRel == ""
        · left; simp [childRel, hp]
        · right; exact ⟨parentRel, by simp [childRel, hp]⟩
      · exact walkForest_kept cfg rootPath ts parentRel hok'.2 e h2

end

/-- C5 (amended): for a well-formed directory tree, and provided every
configured exclude pattern is well-formed for the names encountered
(`filepath.Match` reports no error — a malformed exclude pattern aborts the
scan early and masks the patterns after it, see the counterexample), every
file entry kept by the walk satisfies: its base name does not begin with `.`
unless hidden display is enabled; its base name matches no configured exclude
glob; if include globs are configured it matches at least one of them; and if
a positive size ceiling is configured its size does not exceed it. -/
theorem c5_filter_conjunction (cfg : WalkCfg) (rootPath : String) (forest : List FSTree)
    (hok : forestOkB forest = true)
    (hexc : ∀ p ∈ cfg.excludes, ∀ n, cfg.goMatch p n ≠ none) :
    ∀ e ∈ (walkDirectory cfg rootPath forest).1,
      (cfg.showHidden = true ∨ strStartsWith (goBase e.path) "." = false) ∧
      (∀ p ∈ cfg.excludes, cfg.goMatch p (goBase e.path) ≠ some true) ∧
      (cfg.includes ≠ [] → ∃ p ∈ cfg.includes, cfg.goMatch p (goBase e.path) = some true) ∧
      (0 < cfg.maxSizeBytes → (e.size : Int) ≤ cfg.maxSizeBytes) := by
  intro e he
  obtain ⟨pre, name, size, hval, hee, hhid, hexcl, hincl, hsize⟩ :=
    walkForest_kept cfg rootPath forest "" hok e he
  have hbase : goBase e.path = name := by
    rw [hee]
    exact goBase_append pre name hval
  have hsz : e.size = size := by rw [hee]
  rw [hbase, hsz]
  refine ⟨?_, ?_, ?_, ?_⟩
  · cases hsh : cfg.showHidden with
    | true => exact Or.inl rfl
    | false =>
        right
        rw [← isHidden_eq_startsWith name hval]
        simpa [hsh] using hhid
  · intro p hp
    have hres := matchRes_toBool_false cfg.goMatch name cfg.excludes
      (fun q hq => hexc q hq name) hexcl
    exact matchesAnyPattern_false cfg.goMatch name cfg.excludes hres p hp
  · intro hne
    have hres := matchRes_toBool_true _ (hincl hne)
    exact matchesAnyPattern_true cfg.goMatch name cfg.includes hres
  · intro hpos
    omega

/-- C5 counterexample to the claim as stated: with the configured exclude
patterns `["[", "*.txt"]` — the first malformed, exactly as `filepath.Match`
treats `"["` — the walk keeps `b.txt` even though its base name matches the
configured exclude glob `"*.txt"`: the match scan stops at the malformed
pattern and the caller proceeds with a `false` matched flag, so the exclusion
never fires. -/
theorem c5_filter_conjunction_cex :
    (walkDirectory cexCfg "/r" cexForest).1 = [{ path := "/r/b.txt", size := 3 }] ∧
    goBase "/r/b.txt" = "b.txt" ∧
    "*.txt" ∈ cexCfg.excludes ∧
    cexCfg.goMatch "*.txt" "b.txt" = some true ∧
    cexCfg.goMatch "[" "b.txt" = none ∧
    ¬ (∀ e ∈ (walkDirectory cexCfg "/r" cexForest).1,
        ∀ p ∈ cexCfg.excludes, cexCfg.goMatch p (goBase e.path) ≠ some true) := by
  refine ⟨by decide, by decide, by decide, by decide, by decide, by decide⟩

/-- C5 witness: the spec's filter scenario — `a.go` (50 bytes), hidden
`.secret`, excluded `b.txt`, include glob `*.go` — keeps exactly `a.go`, and
the theorem's conjunction holds for that entry. -/
theorem c5_filter_conjunction_witness :
    (walkDirectory specCfg "/r" specForest).1 = [{ path := "/r/a.go", size := 50 }] ∧
    (specCfg.showHidden = true ∨ strStartsWith (goBase "/r/a.go") "." = false) ∧
    (∀ p ∈ specCfg.excludes, specCfg.goMatch p (goBase "/r/a.go") ≠ some true) ∧
    (∃ p ∈ specCfg.includes, specCfg.goMatch p (goBase "/r/a.go") = some true) := by
  have hexc : ∀ p ∈ specCfg.excludes, ∀ n, specCfg.goMatch p n ≠ none := by
    intro p hp n
    have hp2 : p = "*.txt" := by simpa [specCfg] using hp
    subst hp2
    simp [specCfg, specMatcher]
  have h := c5_filter_conjunction specCfg "/r" specForest (by decide) hexc
    { path := "/r/a.go", size := 50 } (by decide)
  exact ⟨by decide, h.1, h.2.1, h.2.2.1 (by simp [specCfg])⟩

/-- Helper: a longer list is never a prefix of a shorter one. -/
theorem not_prefix_of_longer (x y : List Char) (h : y.length < x.length) :
    ¬ (x <+: y) := fun hp => absurd hp.length_le (by omega)

/-- Helper: a slash-free segment followed by a slash determines the segment —
if `a ++ '/'…` is a prefix of `b ++ s` with `a`, `b` slash-free and `s` empty
or starting with a slash, then `a = b`. -/
theorem segment_determined :
    ∀ (a s1 b s2 : List Char), '/' ∉ a → '/' ∉ b →
      (s2 = [] ∨ ∃ r, s2 = '/' :: r) →
      (a ++ '/' :: s1 <+: b ++ s2) → a = b := by
  intro a
  induction a with
  | nil =>
      intro s1 b s2 _ hb _ h
      cases b with
      | nil => rfl
      | cons d bs =>
          exfalso
          have h2 := (List.cons_prefix_cons.mp h).1
          exact hb (by rw [← h2]; exact List.mem_cons_self '/' bs)
  | cons c as ih =>
      intro s1 b s2 ha hb hs2 h
      cases b with
      | nil =>
          exfalso
          rcases hs2 with hs2 | ⟨r, hs2⟩
          · rw [hs2] at h
            have := h.length_le
            simp at this
          · rw [hs2] at h
            have h2 := (List.cons_prefix_cons.mp h).1
            exact ha (by rw [h2]; exact List.mem_cons_self '/' as)
      | cons d bs =>
          have h2 := List.cons_prefix_cons.mp h
          have ha2 : '/' ∉ as := fun hm => ha (List.mem_cons_of_mem c hm)
          have hb2 : '/' ∉ bs := fun hm => hb (List.mem_cons_of_mem d hm)
          rw [h2.1, ih s1 bs s2 ha2 hb2 hs2 h2.2]

/-- Helper: the character list of a child's relative path. -/
theorem childRel_data (par n : String) :
    (childRel par n).data
      = (if (par == "") = true then [] else par.data ++ ['/']) ++ n.data := by
  cases hb : par == "" <;> simp [childRel, hb, String.data_append]

/-- Helper: a child's relative path is nonempty when the child's name is a
valid entry name. -/
theorem childRel_ne_empty (par n : String) (hn : validNameB n = true) :
    childRel par n ≠ "" := by
  intro h0
  have h1 : (childRel par n).data = [] := by rw [h0]
  rw [childRel_data] at h1
  simp at h1
  exact (validNameB_spec n hn).1 h1.2

/-- Helper: paths descending from two distinct children of the same directory
are never nested — the one extended by a slash is not a prefix of the other. -/
theorem cross_not_prefix (par na nb : String)
    (hna : validNameB na = true) (hnb : validNameB nb = true) (hne : na ≠ nb)
    (x y : List Char)
    (hx : x = (childRel par na).data ∨ ∃ s, x = (childRel par na).data ++ '/' :: s)
    (hy : y = (childRel par nb).data ∨ ∃ s, y = (childRel par nb).data ++ '/' :: s) :
    ¬ (x ++ ['/'] <+: y) := by
  intro hp
  have hsla : '/' ∉ na.data := (validNameB_spec na hna).2.1
  have hslb : '/' ∉ nb.data := (validNameB_spec nb hnb).2.1
  have hxy : ∃ z sy, (sy = [] ∨ ∃ r, sy = '/' :: r) ∧
      (na.data ++ '/' :: z <+: nb.data ++ sy) := by
    rcases hx with hx | ⟨sx, hx⟩ <;> rcases hy with hy | ⟨sy, hy⟩
    · refine ⟨[], [], Or.inl rfl, ?_⟩
      rw [hx, hy, childRel_data, childRel_data] at hp
      rw [List.append_assoc] at hp
      have h2 := (List.prefix_append_right_inj _).mp hp
      simpa using h2
    · refine ⟨[], '/' :: sy, Or.inr ⟨sy, rfl⟩, ?_⟩
      rw [hx, hy, childRel_data, childRel_data] at hp
      rw [List.append_assoc, List.append_assoc] at hp
      have h2 := (List.prefix_append_right_inj _).mp hp
      simpa using h2
    · refine ⟨sx ++ ['/'], [], Or.inl rfl, ?_⟩
      rw [hx, hy, childRel_data, childRel_data] at hp
      rw [List.append_assoc, List.append_assoc] at hp
      have h2 := (List.prefix_append_right_inj _).mp hp
      simpa using h2
    · refine ⟨sx ++ ['/'], '/' :: sy, Or.inr ⟨sy, rfl⟩, ?_⟩
      rw [hx, hy, childRel_data, childRel_data] at hp
      rw [List.append_assoc, List.append_assoc, List.append_assoc] at hp
      have h2 := (List.prefix_append_right_inj _).mp hp
      simpa using h2
  obtain ⟨z, sy, hsy, hpre⟩ := hxy
  exact hne (strExt na nb (segment_determined na.data z nb.data sy hsla hslb hsy hpre))

/-- Helper: a well-formed tree's name is a valid entry name. -/
theorem treeOkB_name (t : FSTree) (h : treeOkB t = true) :
    validNameB (FSTree.name t) = true := by
  cases t with
  | file n s => simpa [treeOkB, FSTree.name] using h
  | dir n cs =>
      simp only [treeOkB, Bool.and_eq_true] at h
      simpa [FSTree.name] using h.1

/-- Helper: unpacking well-formedness of a nonempty directory listing. -/
theorem forestOkB_cons (t : FSTree) (ts : List FSTree)
    (h : forestOkB (t :: ts) = true) :
    treeOkB t = true ∧ FSTree.name t ∉ ts.map FSTree.name ∧ forestOkB ts = true := by
  simp only [forestOkB, Bool.and_eq_true] at h
  refine ⟨h.1.1, ?_, h.2⟩
  have h2 := h.1.2
  simpa using h2

mutual

/-- Helper (locality): every trace item of one subtree's walk sits at the
subtree's relative path or strictly below it, and every kept entry's path is
the root joined with such a relative path. -/
theorem walkNode_local (cfg : WalkCfg) (rootPath : String) :
    ∀ (t : FSTree) (relPath : String), treeOkB t = true → relPath ≠ "" →
      (∀ ti ∈ (walkNode cfg rootPath relPath t).2,
          ti.relPath.data = relPath.data ∨
          ∃ s, ti.relPath.data = relPath.data ++ '/' :: s) ∧
      (∀ e ∈ (walkNode cfg rootPath relPath t).1,
          e.path.data = rootPath.data ++ '/' :: relPath.data ∨
          ∃ s, e.path.data = rootPath.data ++ '/' :: (relPath.data ++ '/' :: s))
  | .file name size => fun relPath _ _ => by
      rcases walkNode_file_cases cfg rootPath relPath name size with hc | hc <;> rw [hc]
      · constructor
        · intro ti hti
          have hti2 : ti = ⟨relPath, false, false⟩ := by simpa using hti
          rw [hti2]; exact Or.inl rfl
        · intro e he; simp at he
      · constructor
        · intro ti hti
          have hti2 : ti = ⟨relPath, false, false⟩ := by simpa using hti
          rw [hti2]; exact Or.inl rfl
        · intro e he
          have he2 : e = { path := rootPath ++ "/" ++ relPath, size := size } := by
            simpa using he
          rw [he2]
          left
          simp [String.data_append]
  | .dir name children => fun relPath hok hrel => by
      rcases walkNode_dir_cases cfg rootPath relPath name children with hc | hc <;> rw [hc]
      · constructor
        · intro ti hti
          have hti2 : ti = ⟨relPath, true, true⟩ := by simpa using hti
          rw [hti2]; exact Or.inl rfl
        · intro e he; simp at he
      · have hfok : forestOkB children = true := by
          simp only [treeOkB, Bool.and_eq_true] at hok
          exact hok.2
        have hsub := walkForest_local cfg rootPath children relPath hfok
        have hbne : (relPath == "") = false := beq_eq_false_iff_ne.mpr hrel
        constructor
        · intro ti hti
          rcases List.mem_cons.mp (by simpa using hti) with h1 | h2
          · rw [h1]; exact Or.inl rfl
          · obtain ⟨c, _, hshape⟩ := hsub.1 ti h2
            right
            have hcd := childRel_data relPath (FSTree.name c)
            rw [hbne] at hcd
            simp only [Bool.false_eq_true, if_false] at hcd
            rcases hshape with hs | ⟨s, hs⟩
            · exact ⟨(FSTree.name c).data, by rw [hs, hcd]; simp⟩
            · exact ⟨(FSTree.name c).data ++ '/' :: s, by rw [hs, hcd]; simp⟩
        · intro e he
          obtain ⟨c, _, hshape⟩ := hsub.2 e (by simpa using he)
          right
          have hcd := childRel_data relPath (FSTree.name c)
          rw [hbne] at hcd
          simp only [Bool.false_eq_true, if_false] at hcd
          rcases hshape with hs | ⟨s, hs⟩
          · exact ⟨(FSTree.name c).data, by rw [hs, hcd]; simp⟩
          · exact ⟨(FSTree.name c).data ++ '/' :: s, by rw [hs, hcd]; simp⟩

/-- Helper (locality, forest level): every trace item or entry of a directory
listing's walk descends from one of the listed children. -/
theorem walkForest_local (cfg : WalkCfg) (rootPath : String) :
    ∀ (ts : List FSTree) (parentRel : String), forestOkB ts = true →
      (∀ ti ∈ (walkForest cfg rootPath parentRel ts).2,
          ∃ t ∈ ts, ti.relPath.data = (childRel parentRel (FSTree.name t)).data ∨
            ∃ s, ti.relPath.data = (childRel parentRel (FSTree.name t)).data ++ '/' :: s) ∧
      (∀ e ∈ (walkForest cfg rootPath parentRel ts).1,
          ∃ t ∈ ts, e.path.data
              = rootPath.data ++ '/' :: (childRel parentRel (FSTree.name t)).data ∨
            ∃ s, e.path.data = rootPath.data
                ++ '/' :: ((childRel parentRel (FSTree.name t)).data ++ '/' :: s))
  | [] => fun parentRel _ => by
      constructor <;> intro x hx <;> simp [walkForest] at hx
  | t :: ts => fun parentRel hok => by
      obtain ⟨hokt, _, hokr⟩ := forestOkB_cons t ts hok
      have hvt : validNameB (FSTree.name t) = true := treeOkB_name t hokt
      have hhd := walkNode_local cfg rootPath t (childRel parentRel (FSTree.name t)) hokt
        (childRel_ne_empty parentRel (FSTree.name t) hvt)
      have htl := walkForest_local cfg rootPath ts parentRel hokr
      constructor
      · intro ti hti
        simp only [walkForest] at hti
        rcases List.mem_append.mp (by simpa using hti) with h1 | h2
        · exact ⟨t, List.mem_cons_self t ts, hhd.1 ti h1⟩
        · obtain ⟨u, hu, hs⟩ := htl.1 ti h2
          exact ⟨u, List.mem_cons_of_mem t hu, hs⟩
      · intro e he
        simp only [walkForest] at he
        rcases List.mem_append.mp (by simpa using he) with h1 | h2
        · exact ⟨t, List.mem_cons_self t ts, hhd.2 e h1⟩
        · obtain ⟨u, hu, hs⟩ := htl.2 e h2
          exact ⟨u, List.mem_cons_of_mem t hu, hs⟩

end

/-- Helper: every member of a well-formed directory listing is well-formed. -/
theorem forestOkB_mem : ∀ ts : List FSTree, forestOkB ts = true →
    ∀ t ∈ ts, treeOkB t = true := by
  intro ts
  induction ts with
  | nil => intro _ t ht; simp at ht
  | cons a as ih =>
      intro h t ht
      obtain ⟨ha, _, hr⟩ := forestOkB_cons a as h
      rcases List.mem_cons.mp ht with h1 | h2
      · rw [h1]; exact ha
      · exact ih hr t h2

mutual

/-- Helper: within one subtree's walk, a pruned directory dominates no other
trace item and no kept entry — nothing is visited or kept strictly below it. -/
theorem walkNode_nocross (cfg : WalkCfg) (rootPath : String) :
    ∀ (t : FSTree) (relPath : String), treeOkB t = true → relPath ≠ "" →
      ∀ ti ∈ (walkNode cfg rootPath relPath t).2, ti.isDir = true → ti.pruned = true →
        (∀ tj ∈ (walkNode cfg rootPath relPath t).2,
            ¬ (ti.relPath.data ++ ['/'] <+: tj.relPath.data)) ∧
        (∀ e ∈ (walkNode cfg rootPath relPath t).1,
            ¬ (rootPath.data ++ '/' :: (ti.relPath.data ++ ['/']) <+: e.path.data))
  | .file name size => fun relPath _ _ ti hti hdir _ => by
      rcases walkNode_file_cases cfg rootPath relPath name size with hc | hc <;>
        · rw [hc] at hti
          have hti2 : ti = ⟨relPath, false, false⟩ := by simpa using hti
          rw [hti2] at hdir
          simp at hdir
  | .dir name children => fun relPath hok hrel ti hti hdir hpr => by
      rcases walkNode_dir_cases cfg rootPath relPath name children with hc | hc
      · rw [hc] at hti
        have hti2 : ti = ⟨relPath, true, true⟩ := by simpa using hti
        rw [hc, hti2]
        constructor
        · intro tj htj
          have htj2 : tj = ⟨relPath, true, true⟩ := by simpa using htj
          rw [htj2]
          apply not_prefix_of_longer
          simp
        · intro e he
          simp at he
      · rw [hc] at hti
        have hfok : forestOkB children = true := by
          simp only [treeOkB, Bool.and_eq_true] at hok
          exact hok.2
        rcases List.mem_cons.mp (by simpa using hti) with h1 | h2
        · rw [h1] at hpr; simp at hpr
        · have hNC := walkForest_nocross cfg rootPath children relPath hfok ti h2 hdir hpr
          have hloc := walkForest_local cfg rootPath children relPath hfok
          have hbne : (relPath == "") = false := beq_eq_false_iff_ne.mpr hrel
          rw [hc]
          constructor
          · intro tj htj
            rcases List.mem_cons.mp (by simpa using htj) with hj1 | hj2
            · rw [hj1]
              obtain ⟨c, _, hshape⟩ := hloc.1 ti h2
              have hcd := childRel_data relPath (FSTree.name c)
              rw [hbne] at hcd
              simp only [Bool.false_eq_true, if_false] at hcd
              apply not_prefix_of_longer
              rcases hshape with hs | ⟨s, hs⟩ <;> rw [hs, hcd] <;> simp
            · exact hNC.1 tj hj2
          · intro e he
            exact hNC.2 e (by simpa using he)

/-- Helper: the forest-level version of `walkNode_nocross`, using distinctness
of sibling names to separate the subtrees of different children. -/
theorem walkForest_nocross (cfg : WalkCfg) (rootPath : String) :
    ∀ (ts : List FSTree) (parentRel : String), forestOkB ts = true →
      ∀ ti ∈ (walkForest cfg rootPath parentRel ts).2, ti.isDir = true → ti.pruned = true →
        (∀ tj ∈ (walkForest cfg rootPath parentRel ts).2,
            ¬ (ti.relPath.data ++ ['/'] <+: tj.relPath.data)) ∧
        (∀ e ∈ (walkForest cfg rootPath parentRel ts).1,
            ¬ (rootPath.data ++ '/' :: (ti.relPath.data ++ ['/']) <+: e.path.data))
  | [] => fun parentRel _ ti hti => by simp [walkForest] at hti
  | t :: ts => fun parentRel hok ti hti hdir hpr => by
      obtain ⟨hokt, hnames, hokr⟩ := forestOkB_cons t ts hok
      have hvt := treeOkB_name t hokt
      have hneT := childRel_ne_empty parentRel (FSTree.name t) hvt
      have hlocT := walkNode_local cfg rootPath t (childRel parentRel (FSTree.name t))
        hokt hneT
      have hlocR := walkForest_local cfg rootPath ts parentRel hokr
      rcases List.mem_append.mp (by simpa [walkForest] using hti) with hA | hB
      · have hNC := walkNode_nocross cfg rootPath t (childRel parentRel (FSTree.name t))
          hokt hneT ti hA hdir hpr
        have htiShape := hlocT.1 ti hA
        constructor
        · intro tj htj
          rcases List.mem_append.mp (by simpa [walkForest] using htj) with hj1 | hj2
          · exact hNC.1 tj hj1
          · obtain ⟨u, hu, hjShape⟩ := hlocR.1 tj hj2
            have hvu := treeOkB_name u (forestOkB_mem ts hokr u hu)
            have hneu : FSTree.name t ≠ FSTree.name u := fun heq =>
              hnames (heq ▸ List.mem_map_of_mem FSTree.name hu)
            exact cross_not_prefix parentRel (FSTree.name t) (FSTree.name u) hvt hvu hneu
              ti.relPath.data tj.relPath.data htiShape hjShape
        · intro e he
          rcases List.mem_append.mp (by simpa [walkForest] using he) with he1 | he2
          · exact hNC.2 e he1
          · obtain ⟨u, hu, heShape⟩ := hlocR.2 e he2
            have hvu := treeOkB_name u (forestOkB_mem ts hokr u hu)
            have hneu : FSTree.name t ≠ FSTree.name u := fun heq =>
              hnames (heq ▸ List.mem_map_of_mem FSTree.name hu)
            intro hp
            rcases heShape with hs | ⟨s, hs⟩
            · rw [hs, List.append_cons rootPath.data '/'
                  (childRel parentRel (FSTree.name u)).data,
                List.append_cons rootPath.data '/' (ti.relPath.data ++ ['/'])] at hp
              have hp2 := (List.prefix_append_right_inj _).mp hp
              exact cross_not_prefix parentRel (FSTree.name t) (FSTree.name u) hvt hvu hneu
                ti.relPath.data _ htiShape (Or.inl rfl) hp2
            · rw [hs, List.append_cons rootPath.data '/'
                  ((childRel parentRel (FSTree.name u)).data ++ '/' :: s),
                List.append_cons rootPath.data '/' (ti.relPath.data ++ ['/'])] at hp
              have hp2 := (List.prefix_append_right_inj _).mp hp
              exact cross_not_prefix parentRel (FSTree.name t) (FSTree.name u) hvt hvu hneu
                ti.relPath.data _ htiShape (Or.inr ⟨s, rfl⟩) hp2
      · have hNC := walkForest_nocross cfg rootPath ts parentRel hokr ti hB hdir hpr
        obtain ⟨u, hu, huShape⟩ := hlocR.1 ti hB
        have hvu := treeOkB_name u (forestOkB_mem ts hokr u hu)
        have hneu : FSTree.name u ≠ FSTree.name t := fun heq =>
          hnames (by rw [← heq]; exact List.mem_map_of_mem FSTree.name hu)
        constructor
        · intro tj htj
          rcases List.mem_append.mp (by simpa [walkForest] using htj) with hj1 | hj2
          · have hjShape := hlocT.1 tj hj1
            exact cross_not_prefix parentRel (FSTree.name u) (FSTree.name t) hvu hvt hneu
              ti.relPath.data tj.relPath.data huShape hjShape
          · exact hNC.1 tj hj2
        · intro e he
          rcases List.mem_append.mp (by simpa [walkForest] using he) with he1 | he2
          · have heShape := hlocT.2 e he1
            intro hp
            rcases heShape with hs | ⟨s, hs⟩
            · rw [hs, List.append_cons rootPath.data '/'
                  (childRel parentRel (FSTree.name t)).data,
                List.append_cons rootPath.data '/' (ti.relPath.data ++ ['/'])] at hp
              have hp2 := (List.prefix_append_right_inj _).mp hp
              exact cross_not_prefix parentRel (FSTree.name u) (FSTree.name t) hvu hvt hneu
                ti.relPath.data _ huShape (Or.inl rfl) hp2
            · rw [hs, List.append_cons rootPath.data '/'
                  ((childRel parentRel (FSTree.name t)).data ++ '/' :: s),
                List.append_cons rootPath.data '/' (ti.relPath.data ++ ['/'])] at hp
              have hp2 := (List.prefix_append_right_inj _).mp hp
              exact cross_not_prefix parentRel (FSTree.name u) (FSTree.name t) hvu hvt hneu
                ti.relPath.data _ huShape (Or.inr ⟨s, rfl⟩) hp2
          · exact hNC.2 e he2

end

/-- C7: for a well-formed directory tree, every directory the walk prunes
(hidden, ignored, at or beyond the depth ceiling, or excluded — all recorded
as a pruned trace item) dominates nothing in the walk's output: no kept
entry's path extends the pruned directory's path, and no visited path (no
filesystem read) lies strictly below it. -/
theorem c7_pruned_subtrees (cfg : WalkCfg) (rootPath : String) (forest : List FSTree)
    (hok : forestOkB forest = true) :
    ∀ ti ∈ (walkDirectory cfg rootPath forest).2, ti.isDir = true → ti.pruned = true →
      (∀ e ∈ (walkDirectory cfg rootPath forest).1,
          ¬ ((rootPath ++ "/" ++ ti.relPath ++ "/").data <+: e.path.data)) ∧
      (∀ tj ∈ (walkDirectory cfg rootPath forest).2,
          ¬ ((ti.relPath ++ "/").data <+: tj.relPath.data)) := by
  intro ti hti hdir hpr
  have hslash : ("/" : String).data = ['/'] := rfl
  have h := walkForest_nocross cfg rootPath forest "" hok ti hti hdir hpr
  constructor
  · intro e he
    intro hp
    refine h.2 e he ?_
    have hd : (rootPath ++ "/" ++ ti.relPath ++ "/").data
        = rootPath.data ++ '/' :: (ti.relPath.data ++ ['/']) := by
      simp [String.data_append, hslash]
    rw [hd] at hp
    exact hp
  · intro tj htj
    intro hp
    refine h.1 tj htj ?_
    have hd : (ti.relPath ++ "/").data = ti.relPath.data ++ ['/'] := by
      simp [String.data_append, hslash]
    rw [hd] at hp
    exact hp

/-- C7 witness: in the depth scenario the directory `d/e` is pruned, and
indeed the pruned path does not precede the one kept entry `/r/d/f.go`. -/
theorem c7_pruned_subtrees_witness :
    ¬ (("/r" ++ "/" ++ "d/e" ++ "/").data <+: "/r/d/f.go".data) := by
  have h := c7_pruned_subtrees depthCfg "/r" depthForest (by decide)
    ⟨"d/e", true, true⟩ (by decide) rfl rfl
  exact h.1 { path := "/r/d/f.go", size := 5 } (by decide)
